import Mathlib

/-!
# Verification of the bybit-historical-ohlcv-converter tick-to-OHLCV core

Shallow embedding of the two converter scripts:

* `scripts/convert_to_1sec_ohlcv.py` — streaming 1-second aggregator
  (namespace `OneSec`);
* `scripts/convert_to_ohlcv.py` — two-pass gap-filling aggregator
  (namespace `Gap`).

Python floats are modelled as rationals (`ℚ`).  The float sentinels
`float('-inf')` / `float('inf')` used for the streaming buffer's
`high` / `low` are modelled as `Option ℚ` with `none` standing for the
infinite sentinel: for every finite price `p`, `max(-inf, p) = p` and
`min(inf, p) = p`, which is exactly the behaviour of `maxSent` /
`minSent` below.  The derived `datetime` string column is not modelled
(it is a pure formatting of the integer `timestamp` field).
-/

/-- One trade tick, after the CSV row has been parsed:
`{timestamp, price, size}` as in both scripts. -/
structure Tick where
  timestamp : ℚ
  price : ℚ
  size : ℚ
deriving DecidableEq, Repr

/-- A raw CSV row as seen by `process_tick`.  Each field is
`none` when the column is missing from the row (Python `KeyError` /
`dict.get` miss), `some none` when present but not parseable as a
float (Python `ValueError`), and `some (some q)` when it parses to
`q`. -/
structure Row where
  timestamp : Option (Option ℚ)
  price : Option (Option ℚ)
  size : Option (Option ℚ)
  volume : Option (Option ℚ)
deriving DecidableEq, Repr

/-- `float(row[field])`: succeeds only when the field is present and
parseable; a missing field (`KeyError`) or an unparseable one
(`ValueError`) raises, modelled by `none`. -/
def parse_field : Option (Option ℚ) → Option ℚ
  | some (some q) => some q
  | _ => none

namespace OneSec

/-- The streaming converter's per-second buffer
(`convert_to_1sec_ohlcv.py`, `reset_buffer`).  `high = none` stands for
`float('-inf')`, `low = none` for `float('inf')`, exactly as set by
`reset_buffer`. -/
structure Buffer where
  openPrice : Option ℚ
  high : Option ℚ
  low : Option ℚ
  close : Option ℚ
  volume : ℚ
  trades : ℕ
deriving DecidableEq, Repr

/-- `reset_buffer`: open/close `None`, high `-inf`, low `inf`, volume 0,
trades 0. -/
def reset_buffer : Buffer := ⟨none, none, none, none, 0, 0⟩

/-- Converter state: `current_second` (initially `None`) and the buffer.
In the script the buffer attribute starts as `None` and is only ever read
after a `reset_buffer` call (the flush branch requires
`current_second is not None`), so initialising it with `reset_buffer`
is observationally identical. -/
structure SState where
  current_second : Option ℤ
  buf : Buffer
deriving DecidableEq, Repr

def initS : SState := ⟨none, reset_buffer⟩

/-- A candle as emitted by the streaming script: the dict entries
`high`/`low`/`close` are copied verbatim from the buffer, so they are
`Option ℚ` here (`none` = the `±inf` sentinel resp. `None`); the `open`
entry is guarded by `is not None` before emission and hence a plain
`ℚ`. -/
structure SCandle where
  timestamp : ℤ
  openPrice : ℚ
  high : Option ℚ
  low : Option ℚ
  close : Option ℚ
  volume : ℚ
  trades : ℕ
deriving DecidableEq, Repr

/-- `max` against a possibly-`-inf` accumulator. -/
def maxSent : Option ℚ → ℚ → ℚ
  | none, p => p
  | some h, p => max h p

/-- `min` against a possibly-`inf` accumulator. -/
def minSent : Option ℚ → ℚ → ℚ
  | none, p => p
  | some l, p => min l p

/-- `int(math.floor(timestamp))` — the 1-second bucket key.  Note: the
streaming script applies **no** millisecond normalization to the
timestamp. -/
def tick_second (t : Tick) : ℤ := ⌊t.timestamp⌋

/-- Candle built from the buffer at second `s` (the emission dict of
`process_tick` / `get_final_candle`), given the guarded open price. -/
def emit_candle (s : ℤ) (op : ℚ) (b : Buffer) : SCandle :=
  ⟨s, op, b.high, b.low, b.close, b.volume, b.trades⟩

/-- `process_tick` on an already-parsed tick: returns the flushed candle
(if any) and the next state.  Mirrors the three phases of the script:
flush-on-bucket-change, re-target `current_second`, then update the
buffer with the tick. -/
def process_tick (st : SState) (t : Tick) : Option SCandle × SState :=
  let sec := tick_second t
  -- "if self.current_second is not None and tick_second != self.current_second"
  let flushed : Option SCandle × SState :=
    match st.current_second with
    | some s =>
      if sec ≠ s then
        (match st.buf.openPrice with
         | some op => some (emit_candle s op st.buf)
         | none => none,
         { st with buf := reset_buffer })
      else (none, st)
    | none => (none, st)
  let result := flushed.1
  let st1 := flushed.2
  -- "if self.current_second != tick_second"
  let st2 : SState :=
    if st1.current_second ≠ some sec then ⟨some sec, reset_buffer⟩ else st1
  -- update phase
  let b := st2.buf
  let b' : Buffer :=
    { openPrice := match b.openPrice with | none => some t.price | some p => some p
      high := some (maxSent b.high t.price)
      low := some (minSent b.low t.price)
      close := some t.price
      volume := b.volume + t.size
      trades := b.trades + 1 }
  (result, { st2 with buf := b' })

/-- `get_final_candle`. -/
def get_final_candle (st : SState) : Option SCandle :=
  match st.current_second, st.buf.openPrice with
  | some s, some op => some (emit_candle s op st.buf)
  | _, _ => none

/-- Process a list of ticks from a given state, collecting the candles
emitted by `process_tick` in order (the `convert_file` loop body). -/
def run : SState → List Tick → List SCandle × SState
  | st, [] => ([], st)
  | st, t :: ts =>
    let r := process_tick st t
    let rest := run r.2 ts
    (r.1.toList ++ rest.1, rest.2)

/-- Full streaming conversion of a tick list: the per-tick emissions
followed by the final candle (`convert_file`). -/
def convert (ts : List Tick) : List SCandle :=
  let r := run initS ts
  r.1 ++ (get_final_candle r.2).toList

/-- Row parsing of the streaming script:
`float(row['timestamp'])`, `float(row['price'])`, `float(row['size'])` —
only the `size` column is read for quantity, and no millisecond
normalization is applied to the timestamp. -/
def parse_row (r : Row) : Option Tick :=
  match parse_field r.timestamp, parse_field r.price, parse_field r.size with
  | some t, some p, some s => some ⟨t, p, s⟩
  | _, _, _ => none

end OneSec

/-- Fail-fast row parsing loop: any unparseable row aborts the whole
conversion (the unhandled exception propagates out of the `for row in
reader` loop). -/
def parse_rows (p : Row → Option Tick) : List Row → Option (List Tick)
  | [] => some []
  | r :: rs =>
    match p r with
    | none => none
    | some t => (parse_rows p rs).map (t :: ·)

/-- Streaming conversion at the row level: parse every row (fail-fast),
then aggregate. -/
def convert_rows_1sec (rows : List Row) : Option (List OneSec.SCandle) :=
  (parse_rows OneSec.parse_row rows).map OneSec.convert

namespace Gap

/-- `TIMEFRAMES` of `convert_to_ohlcv.py`: supported timeframe strings and
their lengths in seconds.  An unsupported string raises
(`InvalidTimeframe`), modelled by `none`. -/
def TIMEFRAMES : String → Option ℤ
  | "1s" => some 1
  | "1m" => some 60
  | "5m" => some 300
  | "15m" => some 900
  | "1h" => some 3600
  | "4h" => some 14400
  | "1d" => some 86400
  | _ => none

/-- `get_interval`: `int(math.floor(timestamp / interval_seconds) *
interval_seconds)` — the bucket key for a normalized timestamp, for
interval length `i`. -/
def get_interval (i : ℤ) (ts : ℚ) : ℤ := ⌊ts / (i : ℚ)⌋ * i

/-- Millisecond normalization at tick ingestion
(`process_tick`, lines 45–47): divide by 1000 iff the raw value exceeds
`1e10`. -/
def normalize_ts_ingest (q : ℚ) : ℚ := if q > 10000000000 then q / 1000 else q

/-- Millisecond normalization at min/max time-range tracking
(`convert_file`, lines 170–172): same policy, written out separately in
the source. -/
def normalize_ts_track (q : ℚ) : ℚ := if q > 10000000000 then q / 1000 else q

/-- The `ticks_by_interval` dictionary: association list from bucket key
to the ticks stored for that bucket, in arrival order; entries appear in
first-insertion order. -/
abbrev GMap := List (ℤ × List Tick)

/-- Dictionary lookup (`self.ticks_by_interval[k]` / `k in
self.ticks_by_interval`). -/
def lookupKey (k : ℤ) : GMap → Option (List Tick)
  | [] => none
  | e :: rest => if e.1 = k then some e.2 else lookupKey k rest

/-- Store one tick under its bucket key: append to the existing entry,
or create a fresh singleton entry (at the end, i.e. dict insertion
order). -/
def add_tick (m : GMap) (k : ℤ) (t : Tick) : GMap :=
  match m with
  | [] => [(k, [t])]
  | e :: rest => if e.1 = k then (e.1, e.2 ++ [t]) :: rest else e :: add_tick rest k t

/-- `process_tick` of the gap-filling script on an already-parsed tick
(timestamp already normalized at parse time): group by bucket key. -/
def ingest_from (i : ℤ) : GMap → List Tick → GMap
  | m, [] => m
  | m, t :: ts => ingest_from i (add_tick m (get_interval i t.timestamp) t) ts

/-- Ingest a whole tick list into an empty dictionary. -/
def ingest (i : ℤ) (ts : List Tick) : GMap := ingest_from i [] ts

/-- `sorted(ticks, key=lambda x: x['timestamp'])` (stable merge sort by
timestamp). -/
def sort_by_ts (l : List Tick) : List Tick :=
  l.mergeSort (fun a b => decide (a.timestamp ≤ b.timestamp))

/-- A gap-filling-script candle (all price fields are genuine floats
here; the `datetime` formatting column is again not modelled). -/
structure Candle where
  timestamp : ℤ
  openPrice : ℚ
  high : ℚ
  low : ℚ
  close : ℚ
  volume : ℚ
  trades : ℕ
deriving DecidableEq, Repr

/-- `get_ohlcv_for_interval`: `None` on an empty tick list, else sort by
timestamp and aggregate (open = first price, close = last price,
high/low = max/min price, volume = sum of sizes, trades = count). -/
def get_ohlcv_for_interval (k : ℤ) (ticks : List Tick) : Option Candle :=
  match sort_by_ts ticks with
  | [] => none
  | t :: rest =>
    some
      { timestamp := k
        openPrice := t.price
        high := rest.foldl (fun m u => max m u.price) t.price
        low := rest.foldl (fun m u => min m u.price) t.price
        close := (rest.getLastD t).price
        volume := ((t :: rest).map Tick.size).sum
        trades := (t :: rest).length }

/-- `min(self.ticks_by_interval.keys())`, guarded by the dictionary
being non-empty. -/
def first_interval (m : GMap) : Option ℤ := (m.map Prod.fst).min?

/-- The `next_open` computation of `generate_all_candles` (lines
98–106): only when the earliest non-empty bucket lies strictly after
the window start, take the price of the timestamp-earliest tick of that
bucket. -/
def next_open_of (m : GMap) (start_time : ℤ) : Option ℚ :=
  match first_interval m with
  | none => none
  | some f =>
    if start_time < f then
      match lookupKey f m with
      | none => none
      | some l =>
        match sort_by_ts l with
        | [] => none
        | t :: _ => some t.price
    else none

/-- A gap-filled (synthetic) flat candle. -/
def fill_candle (ts : ℤ) (p : ℚ) : Candle := ⟨ts, p, p, p, p, 0, 0⟩

/-- The `while current_time <= end_time` walk of `generate_all_candles`,
with an explicit fuel argument (structural recursion standing in for the
while loop; `generate_all_candles` below supplies enough fuel for the
loop condition, not the fuel, to be what terminates every walk). -/
def gen_loop (m : GMap) (i end_time : ℤ) : ℕ → ℤ → Option ℚ → Option ℚ → List Candle
  | 0, _, _, _ => []
  | fuel + 1, cur, last_close, next_open =>
    if cur ≤ end_time then
      match lookupKey cur m with
      | some ticks =>
        match get_ohlcv_for_interval cur ticks with
        | some c => c :: gen_loop m i end_time fuel (cur + i) (some c.close) next_open
        | none => gen_loop m i end_time fuel (cur + i) last_close next_open
      | none =>
        match last_close with
        | some fp => fill_candle cur fp :: gen_loop m i end_time fuel (cur + i) last_close next_open
        | none =>
          match next_open with
          | some fp =>
            fill_candle cur fp :: gen_loop m i end_time fuel (cur + i) last_close next_open
          | none => gen_loop m i end_time fuel (cur + i) last_close next_open
    else []

/-- Fuel that dominates the number of loop iterations whenever
`0 < i`: from `cur` the loop runs at most `end_time + i - cur` times
(each pass moves `cur` up by `i ≥ 1`, and it stops as soon as
`cur > end_time`). -/
def gen_fuel (i start_time end_time : ℤ) : ℕ := (end_time + i - start_time).toNat

/-- `generate_all_candles(start_time, end_time)`:
`last_close = None`, `next_open` precomputed, then the bucket walk. -/
def generate_all_candles (i : ℤ) (m : GMap) (start_time end_time : ℤ) : List Candle :=
  gen_loop m i end_time (gen_fuel i start_time end_time) start_time none
    (next_open_of m start_time)

/-- The quantity field of the gap-filling script:
`row.get('size', row.get('volume', 0))` followed by `float(...)` —
`size` if the column exists (parse failure aborts), else `volume` if it
exists, else the constant `0`. -/
def size_field (r : Row) : Option ℚ :=
  match r.size with
  | some v => v
  | none =>
    match r.volume with
    | some v => v
    | none => some 0

/-- Row parsing of the gap-filling script: parse and normalize the
timestamp, parse the price, then the size/volume quantity. -/
def parse_row (r : Row) : Option Tick :=
  match parse_field r.timestamp, parse_field r.price, size_field r with
  | some t, some p, some s => some ⟨normalize_ts_ingest t, p, s⟩
  | _, _, _ => none

/-- Row-level first pass: parse every row (fail-fast) and build the
bucket dictionary. -/
def ingest_rows (i : ℤ) (rows : List Row) : Option GMap :=
  (parse_rows parse_row rows).map (ingest i)

end Gap

namespace OneSec

/-- The distinct-key sequence of a non-decreasing bucket-key stream:
`s` is the currently open bucket, and each change of key appends the
previous one. -/
def distinct_keys : ℤ → List ℤ → List ℤ
  | s, [] => [s]
  | s, k :: ks => if k = s then distinct_keys s ks else s :: distinct_keys k ks

theorem distinct_keys_head : ∀ (l : List ℤ) (s : ℤ), ∃ tl, distinct_keys s l = s :: tl := by
  intro l
  induction l with
  | nil => intro s; exact ⟨[], rfl⟩
  | cons k ks ih =>
    intro s
    by_cases h : k = s
    · simpa [distinct_keys, h] using ih s
    · exact ⟨distinct_keys k ks, by simp [distinct_keys, h]⟩

theorem mem_distinct_keys : ∀ (l : List ℤ) (s x : ℤ),
    x ∈ distinct_keys s l ↔ x = s ∨ x ∈ l := by
  intro l
  induction l with
  | nil => intro s x; simp [distinct_keys]
  | cons k ks ih =>
    intro s x
    by_cases h : k = s
    · simp [distinct_keys, h, ih]
    · simp [distinct_keys, h, ih]

theorem distinct_keys_chain_lt : ∀ (l : List ℤ) (s : ℤ),
    List.Chain' (· ≤ ·) (s :: l) → List.Chain' (· < ·) (distinct_keys s l) := by
  intro l
  induction l with
  | nil => intro s _; simp [distinct_keys]
  | cons k ks ih =>
    intro s hc
    rw [List.chain'_cons] at hc
    by_cases h : k = s
    · rw [distinct_keys, if_pos h]
      exact ih s (h ▸ hc.2)
    · rw [distinct_keys, if_neg h]
      obtain ⟨tl, htl⟩ := distinct_keys_head ks k
      rw [htl]
      refine List.Chain'.cons ?_ (htl ▸ ih k hc.2)
      exact lt_of_le_of_ne hc.1 (fun hs => h hs.symm)

/-- All per-tick emissions followed by the final candle, starting from
an arbitrary converter state. -/
def emitted (st : SState) (ts : List Tick) : List SCandle :=
  (run st ts).1 ++ (get_final_candle (run st ts).2).toList

theorem convert_eq_emitted (ts : List Tick) : convert ts = emitted initS ts := rfl

theorem emitted_nil (st : SState) : emitted st [] = (get_final_candle st).toList := by
  simp [emitted, run]

theorem emitted_cons (st : SState) (t : Tick) (ts : List Tick) :
    emitted st (t :: ts) =
      (process_tick st t).1.toList ++ emitted (process_tick st t).2 ts := by
  simp [emitted, run]

/-- `process_tick` on a tick staying in the open bucket: no emission,
buffer merged. -/
theorem process_tick_same (st : SState) (t : Tick) (s : ℤ) (p : ℚ)
    (hc : st.current_second = some s) (hs : tick_second t = s)
    (hp : st.buf.openPrice = some p) :
    process_tick st t =
      (none,
       ⟨some s,
        ⟨some p, some (maxSent st.buf.high t.price), some (minSent st.buf.low t.price),
         some t.price, st.buf.volume + t.size, st.buf.trades + 1⟩⟩) := by
  simp [process_tick, hc, hs, hp]

/-- `process_tick` on a tick with a different bucket key than the open
one: the open bucket is flushed and a fresh bucket for the tick's own
key is opened (whether the new key is larger or smaller). -/
theorem process_tick_diff (st : SState) (t : Tick) (s : ℤ) (p : ℚ)
    (hc : st.current_second = some s) (hs : tick_second t ≠ s)
    (hp : st.buf.openPrice = some p) :
    process_tick st t =
      (some (emit_candle s p st.buf),
       ⟨some (tick_second t),
        ⟨some t.price, some t.price, some t.price, some t.price, t.size, 1⟩⟩) := by
  simp [process_tick, hc, hs, hp, Ne.symm hs, reset_buffer, maxSent, minSent]

/-- `process_tick` from the initial state: no emission, first bucket
opened. -/
theorem process_tick_from_none (st : SState) (t : Tick)
    (hc : st.current_second = none) :
    process_tick st t =
      (none,
       ⟨some (tick_second t),
        ⟨some t.price, some t.price, some t.price, some t.price, t.size, 1⟩⟩) := by
  simp [process_tick, hc, reset_buffer, maxSent, minSent]

theorem get_final_candle_some (st : SState) (s : ℤ) (p : ℚ)
    (hc : st.current_second = some s) (hp : st.buf.openPrice = some p) :
    get_final_candle st = some (emit_candle s p st.buf) := by
  simp [get_final_candle, hc, hp]

/-- Main streaming-run invariant for non-decreasing inputs: starting in
a state with bucket `s` open, the emitted timestamps are the distinct
keys of `s :: keys ts`, and every input tick is counted in exactly one
emitted `trades` field. -/
theorem emitted_spec : ∀ (ts : List Tick) (st : SState) (s : ℤ) (p : ℚ),
    st.current_second = some s → st.buf.openPrice = some p →
    List.Chain' (· ≤ ·) (s :: ts.map tick_second) →
    (emitted st ts).map SCandle.timestamp = distinct_keys s (ts.map tick_second) ∧
    ((emitted st ts).map SCandle.trades).sum = st.buf.trades + ts.length := by
  intro ts
  induction ts with
  | nil =>
    intro st s p hc hp _
    rw [emitted_nil, get_final_candle_some st s p hc hp]
    simp [distinct_keys, emit_candle]
  | cons t ts ih =>
    intro st s p hc hp hchain
    have hchain' := (List.chain'_cons.mp (by simpa using hchain))
    by_cases h : tick_second t = s
    · rw [emitted_cons, process_tick_same st t s p hc h hp]
      have := ih
        ⟨some s,
         ⟨some p, some (maxSent st.buf.high t.price), some (minSent st.buf.low t.price),
          some t.price, st.buf.volume + t.size, st.buf.trades + 1⟩⟩
        s p rfl rfl (by rw [← h]; exact hchain'.2)
      simp only [Option.toList_none, List.nil_append] at this ⊢
      refine ⟨?_, ?_⟩
      · rw [this.1]
        simp [List.map_cons, distinct_keys, h]
      · rw [this.2]
        simp only [List.length_cons]
        omega
    · rw [emitted_cons, process_tick_diff st t s p hc h hp]
      have := ih
        ⟨some (tick_second t),
         ⟨some t.price, some t.price, some t.price, some t.price, t.size, 1⟩⟩
        (tick_second t) t.price rfl rfl hchain'.2
      refine ⟨?_, ?_⟩
      · simp only [Option.toList_some, List.singleton_append, List.map_cons]
        rw [this.1]
        simp [emit_candle, List.map_cons, distinct_keys, h]
      · simp only [Option.toList_some, List.singleton_append, List.map_cons, List.sum_cons]
        rw [this.2]
        simp only [List.length_cons, emit_candle]
        omega

end OneSec

namespace OneSec

/-- Emission-timing characterization: `process_tick` returns a candle
exactly when a tick whose bucket key differs from the open bucket
arrives while that bucket has recorded data. -/
theorem process_tick_emits_iff (st : SState) (t : Tick) :
    (process_tick st t).1 ≠ none ↔
      ∃ s, st.current_second = some s ∧ tick_second t ≠ s ∧ st.buf.openPrice ≠ none := by
  cases hc : st.current_second with
  | none => simp [process_tick, hc]
  | some s =>
    by_cases hs : tick_second t = s
    · simp [process_tick, hc, hs]
    · cases hp : st.buf.openPrice with
      | none => simp [process_tick, hc, hs, hp]
      | some p => simp [process_tick, hc, hs, hp]

theorem convert_nil : convert [] = [] := rfl

/-- Conclusion of claim C1 at a given input: candle timestamps strictly
increase; the emitted timestamps are exactly the distinct 1-second
bucket keys occurring in the input; the `trades` fields sum to the
number of input ticks; and `process_tick` emits exactly at
bucket-change moments. -/
def C1Spec (ticks : List Tick) : Prop :=
  List.Chain' (· < ·) ((convert ticks).map SCandle.timestamp) ∧
  (∀ k : ℤ, k ∈ (convert ticks).map SCandle.timestamp ↔ k ∈ ticks.map tick_second) ∧
  ((convert ticks).map SCandle.trades).sum = ticks.length ∧
  (∀ st u, (process_tick st u).1 ≠ none ↔
    ∃ s, st.current_second = some s ∧ tick_second u ≠ s ∧ st.buf.openPrice ≠ none)

/-- **C1**: for every finite tick stream whose timestamps are
non-decreasing, the streaming converter (`process_tick` on each tick in
order, then `get_final_candle`) emits exactly one candle per distinct
bucket key of the input, in ascending bucket order, a candle being
emitted exactly when a tick with a different bucket key arrives (the
last bucket at stream end), and the `trades` fields sum to the number
of input ticks. -/
theorem C1_streaming_one_candle_per_bucket (ticks : List Tick)
    (hp : List.Pairwise (· ≤ ·) (ticks.map Tick.timestamp)) : C1Spec ticks := by
  have h : List.Chain' (· ≤ ·) (ticks.map Tick.timestamp) := hp.chain'
  have hkeys : List.Chain' (· ≤ ·) (ticks.map tick_second) := by
    rw [List.chain'_map] at h ⊢
    exact h.imp (fun a b hab => Int.floor_le_floor hab)
  cases ticks with
  | nil =>
    exact ⟨by simp [convert_nil], by simp [convert_nil], by simp [convert_nil],
      process_tick_emits_iff⟩
  | cons t ts =>
    have hrw : convert (t :: ts) =
        emitted ⟨some (tick_second t),
          ⟨some t.price, some t.price, some t.price, some t.price, t.size, 1⟩⟩ ts := by
      rw [convert_eq_emitted, emitted_cons, process_tick_from_none initS t rfl]
      simp
    have hspec := emitted_spec ts
      ⟨some (tick_second t),
        ⟨some t.price, some t.price, some t.price, some t.price, t.size, 1⟩⟩
      (tick_second t) t.price rfl rfl (by simpa using hkeys)
    refine ⟨?_, ?_, ?_, process_tick_emits_iff⟩
    · rw [hrw, hspec.1]
      exact distinct_keys_chain_lt _ _ (by simpa using hkeys)
    · intro k
      rw [hrw, hspec.1, mem_distinct_keys]
      simp
    · rw [hrw, hspec.2]
      simp only [List.length_cons]
      omega

/-- Witness for C1 at the spec's §8 concrete scenario (with 1-second
buckets): ticks at 100.2, 100.9 and 161.0 seconds. -/
theorem C1_streaming_one_candle_per_bucket_witness :
    List.Pairwise (· ≤ ·)
      (([⟨100.2, 10, 1⟩, ⟨100.9, 12, 2⟩, ⟨161, 11, 1⟩] : List Tick).map Tick.timestamp) ∧
    C1Spec [⟨100.2, 10, 1⟩, ⟨100.9, 12, 2⟩, ⟨161, 11, 1⟩] :=
  ⟨by with_unfolding_all decide,
   C1_streaming_one_candle_per_bucket _ (by with_unfolding_all decide)⟩

end OneSec

section FoldExtrema

variable {α : Type*} [LinearOrder α]

theorem le_foldl_max : ∀ (l : List α) (a : α), a ≤ l.foldl max a := by
  intro l
  induction l with
  | nil => intro a; exact le_refl a
  | cons b bs ih => intro a; exact le_trans (le_max_left a b) (ih (max a b))

theorem mem_le_foldl_max : ∀ (l : List α) (a x : α), x ∈ l → x ≤ l.foldl max a := by
  intro l
  induction l with
  | nil => intro a x hx; simp at hx
  | cons b bs ih =>
    intro a x hx
    rw [List.foldl_cons]
    rcases List.mem_cons.mp hx with h | h
    · subst h; exact le_trans (le_max_right a x) (le_foldl_max bs (max a x))
    · exact ih (max a b) x h

theorem foldl_max_mem : ∀ (l : List α) (a : α), l.foldl max a = a ∨ l.foldl max a ∈ l := by
  intro l
  induction l with
  | nil => intro a; exact Or.inl rfl
  | cons b bs ih =>
    intro a
    rcases ih (max a b) with h | h
    · rcases max_choice a b with hm | hm
      · exact Or.inl (by rw [List.foldl_cons, h, hm])
      · exact Or.inr (by rw [List.foldl_cons, h, hm]; exact List.mem_cons_self b bs)
    · exact Or.inr (List.mem_cons_of_mem b h)

theorem foldl_min_le : ∀ (l : List α) (a : α), l.foldl min a ≤ a := by
  intro l
  induction l with
  | nil => intro a; exact le_refl a
  | cons b bs ih => intro a; exact le_trans (ih (min a b)) (min_le_left a b)

theorem foldl_min_le_mem : ∀ (l : List α) (a x : α), x ∈ l → l.foldl min a ≤ x := by
  intro l
  induction l with
  | nil => intro a x hx; simp at hx
  | cons b bs ih =>
    intro a x hx
    rw [List.foldl_cons]
    rcases List.mem_cons.mp hx with h | h
    · subst h; exact le_trans (foldl_min_le bs (min a x)) (min_le_right a x)
    · exact ih (min a b) x h

theorem foldl_min_mem : ∀ (l : List α) (a : α), l.foldl min a = a ∨ l.foldl min a ∈ l := by
  intro l
  induction l with
  | nil => intro a; exact Or.inl rfl
  | cons b bs ih =>
    intro a
    rcases ih (min a b) with h | h
    · rcases min_choice a b with hm | hm
      · exact Or.inl (by rw [List.foldl_cons, h, hm])
      · exact Or.inr (by rw [List.foldl_cons, h, hm]; exact List.mem_cons_self b bs)
    · exact Or.inr (List.mem_cons_of_mem b h)

end FoldExtrema

namespace OneSec

/-- The ticks currently merged in the open buffer: the maximal suffix of
the processed stream whose bucket keys all equal the last tick's bucket
key (any bucket-key change resets the buffer). -/
def lastRun (ts : List Tick) : List Tick :=
  match ts.reverse with
  | [] => []
  | t :: rest =>
    (t :: rest.takeWhile (fun u => decide (tick_second u = tick_second t))).reverse

theorem lastRun_singleton (t : Tick) : lastRun [t] = [t] := rfl

theorem lastRun_concat (l : List Tick) (t u : Tick) (hu : l.getLast? = some u) :
    lastRun (l ++ [t]) =
      if tick_second u = tick_second t then lastRun l ++ [t] else [t] := by
  have hrev : l.reverse.head? = some u := by rw [List.head?_reverse, hu]
  obtain ⟨rest, hrest⟩ : ∃ rest, l.reverse = u :: rest := by
    cases hl : l.reverse with
    | nil => rw [hl] at hrev; simp at hrev
    | cons a as => rw [hl] at hrev; simp at hrev; exact ⟨as, by rw [hrev]⟩
  have hcat : (l ++ [t]).reverse = t :: u :: rest := by
    rw [List.reverse_append, hrest]; rfl
  by_cases h : tick_second u = tick_second t
  · have hfun : (fun x => decide (tick_second x = tick_second t)) =
        (fun x => decide (tick_second x = tick_second u)) := by
      funext x; rw [h]
    rw [if_pos h]
    show (match (l ++ [t]).reverse with
      | [] => []
      | t :: rest =>
        (t :: rest.takeWhile (fun u => decide (tick_second u = tick_second t))).reverse) = _
    rw [hcat]
    simp only [List.takeWhile_cons, decide_eq_true_eq, h, if_pos rfl]
    rw [hfun]
    show (t :: (u :: rest.takeWhile _)).reverse = lastRun l ++ [t]
    rw [List.reverse_cons]
    congr 1
    show (u :: rest.takeWhile _).reverse = lastRun l
    rw [lastRun, hrest]
  · rw [if_neg h]
    show (match (l ++ [t]).reverse with
      | [] => []
      | t :: rest =>
        (t :: rest.takeWhile (fun u => decide (tick_second u = tick_second t))).reverse) = _
    rw [hcat]
    simp only [List.takeWhile_cons, decide_eq_true_eq, h, if_neg h]
    rfl

end OneSec

namespace OneSec

/-- The buffer contents determined by the (non-empty) run of ticks
merged since the last reset. -/
def BufMatches (b : Buffer) : List Tick → Prop
  | [] => False
  | f :: rest =>
    b.openPrice = some f.price ∧
    b.close = some ((rest.getLastD f).price) ∧
    b.high = some (rest.foldl (fun m u => max m u.price) f.price) ∧
    b.low = some (rest.foldl (fun m u => min m u.price) f.price) ∧
    b.volume = ((f :: rest).map Tick.size).sum ∧
    b.trades = (f :: rest).length

theorem run_append (l₁ l₂ : List Tick) : ∀ st : SState,
    run st (l₁ ++ l₂) =
      ((run st l₁).1 ++ (run (run st l₁).2 l₂).1, (run (run st l₁).2 l₂).2) := by
  induction l₁ with
  | nil => intro st; simp [run]
  | cons t ts ih => intro st; simp [run, ih, List.append_assoc]

theorem lastRun_getLast (ts : List Tick) (t : Tick) (ht : ts.getLast? = some t) :
    (lastRun ts).getLast? = some t := by
  have hrev : ts.reverse.head? = some t := by rw [List.head?_reverse, ht]
  obtain ⟨rest, hrest⟩ : ∃ rest, ts.reverse = t :: rest := by
    cases hl : ts.reverse with
    | nil => rw [hl] at hrev; simp at hrev
    | cons a as => rw [hl] at hrev; simp at hrev; exact ⟨as, by rw [hrev]⟩
  rw [lastRun, hrest]
  simp

/-- State invariant of the streaming run: after any non-empty tick
stream, the open bucket is keyed by the last tick's bucket, and the
buffer aggregates exactly the `lastRun` suffix. -/
theorem run_inv : ∀ ts : List Tick, ts ≠ [] →
    ∃ tl, ts.getLast? = some tl ∧
      (run initS ts).2.current_second = some (tick_second tl) ∧
      (∀ u ∈ lastRun ts, tick_second u = tick_second tl) ∧
      BufMatches (run initS ts).2.buf (lastRun ts) := by
  intro ts
  induction ts using List.reverseRecOn with
  | nil => intro h; exact absurd rfl h
  | append_singleton l t ih =>
    intro _
    rcases eq_or_ne l [] with hl | hl
    · subst hl
      refine ⟨t, by simp, ?_, ?_, ?_⟩
      · simp [run, process_tick_from_none initS t rfl]
      · simp [lastRun_singleton]
      · simp only [List.nil_append, run, process_tick_from_none initS t rfl,
          lastRun_singleton, BufMatches]
        simp
    · obtain ⟨tl, htl, hcur, hsec, hbuf⟩ := ih hl
      cases hlr : lastRun l with
      | nil => rw [hlr] at hbuf; exact absurd hbuf (by simp [BufMatches])
      | cons f rest =>
        rw [hlr] at hbuf hsec
        obtain ⟨hop, hcl, hhi, hlo, hvol, htr⟩ := hbuf
        have hstate : (run initS (l ++ [t])).2 = (process_tick (run initS l).2 t).2 := by
          rw [run_append]; rfl
        by_cases h : tick_second t = tick_second tl
        · have hlrcat : lastRun (l ++ [t]) = (f :: rest) ++ [t] := by
            rw [lastRun_concat l t tl htl, if_pos h.symm, hlr]
          have hstep := process_tick_same (run initS l).2 t (tick_second tl) f.price
            hcur h hop
          refine ⟨t, by simp, ?_, ?_, ?_⟩
          · rw [hstate, hstep, h]
          · intro u hu
            rw [hlrcat] at hu
            rcases List.mem_append.mp hu with hu | hu
            · exact (hsec u hu).trans h.symm
            · simp at hu; rw [hu]
          · rw [hstate, hstep, hlrcat]
            show BufMatches _ (f :: (rest ++ [t]))
            refine ⟨rfl, ?_, ?_, ?_, ?_, ?_⟩
            · have : (rest ++ [t]).getLastD f = t := by simp
              rw [this]
            · rw [hhi]
              show some (max _ t.price) = _
              rw [List.foldl_append]
              rfl
            · rw [hlo]
              show some (min _ t.price) = _
              rw [List.foldl_append]
              rfl
            · rw [hvol]
              simp [List.sum_append, add_assoc]
            · rw [htr]
              simp
        · have hlrcat : lastRun (l ++ [t]) = [t] := by
            rw [lastRun_concat l t tl htl, if_neg (fun hh => h hh.symm)]
          have hstep := process_tick_diff (run initS l).2 t (tick_second tl) f.price
            hcur h hop
          refine ⟨t, by simp, ?_, ?_, ?_⟩
          · rw [hstate, hstep]
          · intro u hu
            rw [hlrcat] at hu
            simp at hu; rw [hu]
          · rw [hstate, hstep, hlrcat]
            show BufMatches _ [t]
            refine ⟨rfl, rfl, rfl, rfl, by simp, by simp⟩

end OneSec

namespace OneSec

/-- After any `process_tick` call, the buffer's four price entries are
all set (the update phase unconditionally writes them). -/
theorem process_tick_buf_some (st : SState) (t : Tick) :
    (process_tick st t).2.buf.openPrice ≠ none ∧
    (process_tick st t).2.buf.high ≠ none ∧
    (process_tick st t).2.buf.low ≠ none ∧
    (process_tick st t).2.buf.close ≠ none := by
  refine ⟨?_, by simp [process_tick], by simp [process_tick], by simp [process_tick]⟩
  simp only [process_tick]
  split <;> simp

/-- A candle returned by `process_tick` is the flushed buffer of the
pre-call state. -/
theorem process_tick_flush_src (st : SState) (t : Tick) (c : SCandle)
    (h : (process_tick st t).1 = some c) :
    ∃ s op, st.current_second = some s ∧ st.buf.openPrice = some op ∧
      c = emit_candle s op st.buf := by
  cases hc : st.current_second with
  | none => rw [process_tick] at h; simp [hc] at h
  | some s =>
    by_cases hs : tick_second t = s
    · rw [process_tick] at h; simp [hc, hs] at h
    · cases hp : st.buf.openPrice with
      | none => rw [process_tick] at h; simp [hc, hs, hp] at h
      | some op =>
        rw [process_tick] at h
        simp [hc, hs, hp] at h
        exact ⟨s, op, rfl, rfl, h.symm⟩

/-- No candle that reaches the output ever carries the `-inf` / `inf`
sentinels (or a `None` close): every emission copies a buffer that has
already absorbed at least one tick. -/
theorem convert_no_sentinel_aux : ∀ (ts : List Tick) (st : SState),
    (st.buf.openPrice = none ∨
      (st.buf.high ≠ none ∧ st.buf.low ≠ none ∧ st.buf.close ≠ none)) →
    ∀ c ∈ (run st ts).1 ++ (get_final_candle (run st ts).2).toList,
      c.high ≠ none ∧ c.low ≠ none ∧ c.close ≠ none := by
  intro ts
  induction ts with
  | nil =>
    intro st hst c hc
    simp only [run, List.nil_append] at hc
    cases h1 : st.current_second with
    | none => rw [get_final_candle] at hc; simp [h1] at hc
    | some s =>
      cases h2 : st.buf.openPrice with
      | none => rw [get_final_candle] at hc; simp [h1, h2] at hc
      | some op =>
        rw [get_final_candle] at hc
        simp [h1, h2] at hc
        rcases hst with hst | hst
        · rw [hst] at h2; exact absurd h2 (by simp)
        · rw [hc]; exact hst
  | cons t ts ih =>
    intro st hst c hc
    have hru : (run st (t :: ts)).1 = (process_tick st t).1.toList ++
        (run (process_tick st t).2 ts).1 := by simp [run]
    have hr2 : (run st (t :: ts)).2 = (run (process_tick st t).2 ts).2 := by simp [run]
    rw [hru, hr2, List.append_assoc] at hc
    rcases List.mem_append.mp hc with hc | hc
    · cases hpt : (process_tick st t).1 with
      | none => rw [hpt] at hc; simp at hc
      | some c' =>
        rw [hpt] at hc; simp at hc
        obtain ⟨s, op, _, hop, hcem⟩ := process_tick_flush_src st t c' hpt
        rcases hst with hst | hst
        · rw [hst] at hop; exact absurd hop (by simp)
        · rw [hc, hcem]; exact hst
    · exact ih (process_tick st t).2
        (Or.inr ⟨(process_tick_buf_some st t).2.1, (process_tick_buf_some st t).2.2.1,
          (process_tick_buf_some st t).2.2.2⟩) c hc

/-- Conclusion of claim C10 at a non-empty input: the open buffer
aggregates exactly the maximal constant-bucket suffix `lastRun ticks`
(open = its first price, close = the most recent price, high/low = its
max/min price, volume = its size sum, trades = its length), the open
bucket is keyed by the last tick's floored timestamp, no emitted candle
carries a `±inf` sentinel (nor a `None` close), and `get_final_candle`
does not return `None`. -/
def C10Spec (ticks : List Tick) : Prop :=
  (∃ tl, ticks.getLast? = some tl ∧
    (run initS ticks).2.current_second = some (tick_second tl) ∧
    lastRun ticks ≠ [] ∧
    (∀ u ∈ lastRun ticks, tick_second u = tick_second tl) ∧
    (run initS ticks).2.buf.openPrice = (lastRun ticks).head?.map Tick.price ∧
    (run initS ticks).2.buf.close = some tl.price ∧
    (∃ M, (run initS ticks).2.buf.high = some M ∧ M ∈ (lastRun ticks).map Tick.price ∧
      ∀ p ∈ (lastRun ticks).map Tick.price, p ≤ M) ∧
    (∃ m, (run initS ticks).2.buf.low = some m ∧ m ∈ (lastRun ticks).map Tick.price ∧
      ∀ p ∈ (lastRun ticks).map Tick.price, m ≤ p) ∧
    (run initS ticks).2.buf.volume = ((lastRun ticks).map Tick.size).sum ∧
    (run initS ticks).2.buf.trades = (lastRun ticks).length) ∧
  (∀ c ∈ convert ticks, c.high ≠ none ∧ c.low ≠ none ∧ c.close ≠ none) ∧
  get_final_candle (run initS ticks).2 ≠ none

/-- **C10**: after every `process_tick` call the open buffer is
non-empty and aggregates the current bucket's ticks; no candle returned
by `process_tick` or `get_final_candle` carries the `high = -inf` /
`low = +inf` sentinels; and `get_final_candle` returns `None` exactly
when no tick was ever processed. -/
theorem C10_buffer_invariant (ticks : List Tick) (h : ticks ≠ []) :
    C10Spec ticks ∧ get_final_candle (run initS []).2 = none := by
  refine ⟨?_, rfl⟩
  obtain ⟨tl, htl, hcur, hsec, hbuf⟩ := run_inv ticks h
  have hlast := lastRun_getLast ticks tl htl
  cases hlr : lastRun ticks with
  | nil => rw [hlr] at hbuf; exact absurd hbuf (by simp [BufMatches])
  | cons f rest =>
    rw [hlr] at hbuf hsec hlast
    obtain ⟨hop, hcl, hhi, hlo, hvol, htr⟩ := hbuf
    have hgld : rest.getLastD f = tl := by
      have : (f :: rest).getLast? = some (rest.getLastD f) := by
        simp [List.getLast?_cons]
      rw [this] at hlast
      exact Option.some_injective _ hlast
    refine ⟨⟨tl, htl, hcur, by rw [hlr]; simp, by rw [hlr]; exact hsec, ?_, ?_, ?_, ?_,
        by rw [hlr]; exact hvol, by rw [hlr]; exact htr⟩, ?_, ?_⟩
    · rw [hlr, hop]; rfl
    · rw [hcl, hgld]
    · refine ⟨rest.foldl (fun m u => max m u.price) f.price, hhi, ?_, ?_⟩
      · rw [hlr]
        have hfm : rest.foldl (fun m u => max m u.price) f.price =
            (rest.map Tick.price).foldl max f.price := by
          rw [List.foldl_map]
        rw [hfm]
        rcases foldl_max_mem (rest.map Tick.price) f.price with hh | hh
        · rw [hh]; simp
        · simp [hh]
      · intro p hp
        rw [hlr] at hp
        have hfm : rest.foldl (fun m u => max m u.price) f.price =
            (rest.map Tick.price).foldl max f.price := by
          rw [List.foldl_map]
        rw [hfm]
        rw [List.map_cons] at hp
        rcases List.mem_cons.mp hp with hp' | hp'
        · exact hp' ▸ le_foldl_max _ _
        · exact mem_le_foldl_max _ _ _ hp'
    · refine ⟨rest.foldl (fun m u => min m u.price) f.price, hlo, ?_, ?_⟩
      · rw [hlr]
        have hfm : rest.foldl (fun m u => min m u.price) f.price =
            (rest.map Tick.price).foldl min f.price := by
          rw [List.foldl_map]
        rw [hfm]
        rcases foldl_min_mem (rest.map Tick.price) f.price with hh | hh
        · rw [hh]; simp
        · simp [hh]
      · intro p hp
        rw [hlr] at hp
        have hfm : rest.foldl (fun m u => min m u.price) f.price =
            (rest.map Tick.price).foldl min f.price := by
          rw [List.foldl_map]
        rw [hfm]
        rw [List.map_cons] at hp
        rcases List.mem_cons.mp hp with hp' | hp'
        · exact hp' ▸ foldl_min_le _ _
        · exact foldl_min_le_mem _ _ _ hp'
    · exact convert_no_sentinel_aux ticks initS (Or.inl rfl)
    · rw [get_final_candle_some (run initS ticks).2 (tick_second tl) f.price hcur hop]
      simp

/-- Witness for C10 at a concrete two-bucket stream. -/
theorem C10_buffer_invariant_witness :
    ([⟨100, 10, 1⟩, ⟨100.5, 12, 2⟩, ⟨161, 11, 1⟩] : List Tick) ≠ [] ∧
    (C10Spec [⟨100, 10, 1⟩, ⟨100.5, 12, 2⟩, ⟨161, 11, 1⟩] ∧
      get_final_candle (run initS []).2 = none) :=
  ⟨by simp, C10_buffer_invariant _ (by simp)⟩

end OneSec

namespace OneSec

/-- Counterexample to C3: ticks with bucket keys 6, 7, 5.  When the tick
with bucket 5 (smaller than the already-flushed bucket 6) arrives while
bucket 7 is open, the claim predicts it is merged into bucket 7 (no
emission, `current_second` still 7, trades 2); instead the code flushes
bucket 7 (its timestamp appears in the per-tick output) and opens a
fresh bucket 5 with a single trade. -/
theorem C3_counterexample :
    (run initS [⟨6, 1, 1⟩, ⟨7, 2, 1⟩, ⟨5, 3, 1⟩]).1.map SCandle.timestamp = [6, 7] ∧
    (run initS [⟨6, 1, 1⟩, ⟨7, 2, 1⟩, ⟨5, 3, 1⟩]).2.current_second = some 5 ∧
    (run initS [⟨6, 1, 1⟩, ⟨7, 2, 1⟩, ⟨5, 3, 1⟩]).2.buf.trades = 1 := by
  with_unfolding_all decide

/-- Amended behaviour of `process_tick` on a state with an open,
non-empty bucket `s`: a tick with any *different* bucket key — larger or
smaller — flushes the open bucket and opens a fresh bucket keyed by the
tick; a tick is merged into the open bucket exactly when its bucket key
*equals* `s`. -/
def C3Spec (st : SState) (t : Tick) (s : ℤ) (p : ℚ) : Prop :=
  (tick_second t ≠ s →
    process_tick st t =
      (some (emit_candle s p st.buf),
       ⟨some (tick_second t),
        ⟨some t.price, some t.price, some t.price, some t.price, t.size, 1⟩⟩)) ∧
  (tick_second t = s →
    (process_tick st t).1 = none ∧
    (process_tick st t).2.current_second = some s ∧
    (process_tick st t).2.buf.trades = st.buf.trades + 1 ∧
    (process_tick st t).2.buf.close = some t.price)

/-- **C3 (amended)**: an out-of-order tick for an earlier bucket
arriving while a later bucket is open is *not* merged into the open
bucket: the open bucket is flushed and a new bucket keyed by the
arriving tick is opened.  Merging happens only when the tick's bucket
key equals the open bucket's key. -/
theorem C3_out_of_order_tick (st : SState) (t : Tick) (s : ℤ) (p : ℚ)
    (hc : st.current_second = some s) (hp : st.buf.openPrice = some p) :
    C3Spec st t s p :=
  ⟨fun hs => process_tick_diff st t s p hc hs hp,
   fun hs => by rw [process_tick_same st t s p hc hs hp]; exact ⟨rfl, rfl, rfl, rfl⟩⟩

/-- Witness for the amended C3 at the counterexample's state: bucket 7
open (after ticks with buckets 6 and 7), tick with bucket 5 arriving. -/
theorem C3_out_of_order_tick_witness :
    (run initS [⟨6, 1, 1⟩, ⟨7, 2, 1⟩]).2.current_second = some 7 ∧
    (run initS [⟨6, 1, 1⟩, ⟨7, 2, 1⟩]).2.buf.openPrice = some 2 ∧
    C3Spec (run initS [⟨6, 1, 1⟩, ⟨7, 2, 1⟩]).2 ⟨5, 3, 1⟩ 7 2 :=
  ⟨by with_unfolding_all decide, by with_unfolding_all decide,
   C3_out_of_order_tick _ _ _ _ (by with_unfolding_all decide)
     (by with_unfolding_all decide)⟩

end OneSec

/-- Counterexample to C4: a row with the millisecond timestamp
`1700000000000` is bucketed by the *streaming* converter at the raw
value `1700000000000`, not at `1700000000` as the claim requires of
every ingestion site. -/
theorem C4_counterexample :
    (OneSec.parse_row ⟨some (some 1700000000000), some (some 1), some (some 1), none⟩).map
      OneSec.tick_second = some 1700000000000 ∧
    (1700000000000 : ℤ) ≠ 1700000000 := by
  constructor
  · show some (⌊(1700000000000 : ℚ)⌋) = some 1700000000000
    norm_num
  · decide

/-- Amended claim C4: the `> 1e10 → ÷1000` normalization is applied
identically at the gap-filling converter's two timestamp-reading sites
(tick ingestion and min/max tracking), with the documented example
values; the streaming 1-second converter applies no normalization and
uses the raw value as seconds. -/
def C4Spec : Prop :=
  (∀ q : ℚ, Gap.normalize_ts_ingest q = Gap.normalize_ts_track q) ∧
  Gap.normalize_ts_ingest 1700000000000 = 1700000000 ∧
  Gap.normalize_ts_ingest 1700000000 = 1700000000 ∧
  (∀ (r : Row) (tk : Tick), Gap.parse_row r = some tk →
    ∃ t0, parse_field r.timestamp = some t0 ∧ tk.timestamp = Gap.normalize_ts_ingest t0) ∧
  (∀ (r : Row) (tk : Tick), OneSec.parse_row r = some tk →
    ∃ t0, parse_field r.timestamp = some t0 ∧ tk.timestamp = t0)

/-- **C4 (amended)**: see `C4Spec`. -/
theorem C4_normalization_sites : C4Spec := by
  refine ⟨fun q => rfl, ?_, ?_, ?_, ?_⟩
  · rw [Gap.normalize_ts_ingest,
      if_pos (by norm_num : (1700000000000 : ℚ) > 10000000000)]
    norm_num
  · rw [Gap.normalize_ts_ingest,
      if_neg (by norm_num : ¬ (1700000000 : ℚ) > 10000000000)]
  · intro r tk h
    rw [Gap.parse_row] at h
    cases ht : parse_field r.timestamp with
    | none => rw [ht] at h; simp at h
    | some t0 =>
      cases hp : parse_field r.price with
      | none => rw [ht, hp] at h; simp at h
      | some p0 =>
        cases hs : Gap.size_field r with
        | none => rw [ht, hp, hs] at h; simp at h
        | some s0 =>
          rw [ht, hp, hs] at h
          simp at h
          exact ⟨t0, rfl, by rw [← h]⟩
  · intro r tk h
    rw [OneSec.parse_row] at h
    cases ht : parse_field r.timestamp with
    | none => rw [ht] at h; simp at h
    | some t0 =>
      cases hp : parse_field r.price with
      | none => rw [ht, hp] at h; simp at h
      | some p0 =>
        cases hs : parse_field r.size with
        | none => rw [ht, hp, hs] at h; simp at h
        | some s0 =>
          rw [ht, hp, hs] at h
          simp at h
          exact ⟨t0, rfl, by rw [← h]⟩

/-- Fail-fast: one unparseable row anywhere makes the whole parse
(and hence the whole conversion) fail. -/
theorem parse_rows_none (p : Row → Option Tick) :
    ∀ (rows : List Row) (r : Row), r ∈ rows → p r = none → parse_rows p rows = none := by
  intro rows
  induction rows with
  | nil => intro r hr; simp at hr
  | cons x xs ih =>
    intro r hr hp
    rcases List.mem_cons.mp hr with h | h
    · subst h; rw [parse_rows, hp]
    · rw [parse_rows]
      cases hx : p x with
      | none => rfl
      | some t => rw [ih r h hp]; rfl

/-- Counterexample to C8: a row whose `size` and `volume` columns are
both missing is malformed per the claim (the quantity field is
missing), yet the gap-filling converter accepts it and silently
substitutes quantity 0 — no error is raised and candle output is
produced. -/
theorem C8_counterexample :
    Gap.parse_row ⟨some (some 1), some (some 2), none, none⟩ = some ⟨1, 2, 0⟩ ∧
    Gap.ingest_rows 60 [⟨some (some 1), some (some 2), none, none⟩] ≠ none := by
  with_unfolding_all decide

/-- Amended claim C8: missing/unparseable `timestamp` or `price` aborts
both converters, an unparseable quantity field aborts both, and a
missing `size` aborts the streaming converter; fail-fast propagation
means no candle output is produced from a stream containing such a row.
Exception (forced by the counterexample): the gap-filling converter
accepts a row with *both* `size` and `volume` missing, silently
substituting quantity 0. -/
def C8Spec : Prop :=
  (∀ r : Row, parse_field r.timestamp = none ∨ parse_field r.price = none →
    OneSec.parse_row r = none ∧ Gap.parse_row r = none) ∧
  (∀ r : Row, r.size = some none → OneSec.parse_row r = none ∧ Gap.parse_row r = none) ∧
  (∀ r : Row, r.size = none → OneSec.parse_row r = none) ∧
  (∀ r : Row, r.size = none → r.volume = some none → Gap.parse_row r = none) ∧
  (∀ (rows : List Row) (r : Row), r ∈ rows → OneSec.parse_row r = none →
    convert_rows_1sec rows = none) ∧
  (∀ (i : ℤ) (rows : List Row) (r : Row), r ∈ rows → Gap.parse_row r = none →
    Gap.ingest_rows i rows = none) ∧
  (∀ t0 p0 : ℚ, Gap.parse_row ⟨some (some t0), some (some p0), none, none⟩ =
    some ⟨Gap.normalize_ts_ingest t0, p0, 0⟩)

/-- **C8 (amended)**: see `C8Spec`. -/
theorem C8_fail_fast : C8Spec := by
  refine ⟨?_, ?_, ?_, ?_, ?_, ?_, ?_⟩
  · intro r h
    constructor
    · rw [OneSec.parse_row]
      rcases h with h | h
      · rw [h]
      · rw [h]; cases parse_field r.timestamp <;> rfl
    · rw [Gap.parse_row]
      rcases h with h | h
      · rw [h]
      · rw [h]; cases parse_field r.timestamp <;> rfl
  · intro r h
    constructor
    · rw [OneSec.parse_row]
      have : parse_field r.size = none := by rw [h]; rfl
      rw [this]
      cases parse_field r.timestamp <;> cases parse_field r.price <;> rfl
    · rw [Gap.parse_row]
      have : Gap.size_field r = none := by rw [Gap.size_field, h]
      rw [this]
      cases parse_field r.timestamp <;> cases parse_field r.price <;> rfl
  · intro r h
    rw [OneSec.parse_row]
    have : parse_field r.size = none := by rw [h]; rfl
    rw [this]
    cases parse_field r.timestamp <;> cases parse_field r.price <;> rfl
  · intro r hs hv
    rw [Gap.parse_row]
    have : Gap.size_field r = none := by rw [Gap.size_field, hs, hv]
    rw [this]
    cases parse_field r.timestamp <;> cases parse_field r.price <;> rfl
  · intro rows r hr hp
    rw [convert_rows_1sec, parse_rows_none OneSec.parse_row rows r hr hp]
    rfl
  · intro i rows r hr hp
    rw [Gap.ingest_rows, parse_rows_none Gap.parse_row rows r hr hp]
    rfl
  · intro t0 p0
    rfl

/-- Counterexample to C9: a row carrying the quantity only in a
`volume` column (no `size` column) is rejected by the *streaming*
converter — it reads `row['size']` only — although the claim says both
converters accept either column. -/
theorem C9_counterexample :
    OneSec.parse_row ⟨some (some 1), some (some 2), none, some (some 3)⟩ = none ∧
    Gap.parse_row ⟨some (some 1), some (some 2), none, some (some 3)⟩ = some ⟨1, 2, 3⟩ := by
  with_unfolding_all decide

/-- Amended claim C9: the gap-filling converter accepts the quantity
from `size` or `volume`, preferring `size` when both are present; the
streaming converter accepts it only from `size` and fails when `size`
is missing, whatever the `volume` column holds. -/
def C9Spec : Prop :=
  (∀ t0 p0 s0 v0 : ℚ,
    Gap.parse_row ⟨some (some t0), some (some p0), some (some s0), some (some v0)⟩ =
      some ⟨Gap.normalize_ts_ingest t0, p0, s0⟩) ∧
  (∀ t0 p0 v0 : ℚ,
    Gap.parse_row ⟨some (some t0), some (some p0), none, some (some v0)⟩ =
      some ⟨Gap.normalize_ts_ingest t0, p0, v0⟩) ∧
  (∀ t0 p0 s0 v0 : ℚ,
    OneSec.parse_row ⟨some (some t0), some (some p0), some (some s0), some (some v0)⟩ =
      some ⟨t0, p0, s0⟩) ∧
  (∀ (t0 p0 : ℚ) (v0 : Option (Option ℚ)),
    OneSec.parse_row ⟨some (some t0), some (some p0), none, v0⟩ = none)

/-- **C9 (amended)**: see `C9Spec`. -/
theorem C9_quantity_column : C9Spec :=
  ⟨fun _ _ _ _ => rfl, fun _ _ _ => rfl, fun _ _ _ _ => rfl, fun _ _ _ => rfl⟩

namespace Gap

theorem sort_by_ts_perm (l : List Tick) : (sort_by_ts l).Perm l :=
  List.mergeSort_perm l _

theorem sort_by_ts_sorted (l : List Tick) :
    (sort_by_ts l).Pairwise (fun a b => a.timestamp ≤ b.timestamp) := by
  have h := @List.sorted_mergeSort Tick
    (fun a b : Tick => decide (a.timestamp ≤ b.timestamp))
    (fun a b c h1 h2 => by
      simp only [decide_eq_true_eq] at h1 h2 ⊢
      exact le_trans h1 h2)
    (fun a b => by
      simp only [Bool.or_eq_true, decide_eq_true_eq]
      exact le_total a.timestamp b.timestamp)
    l
  exact h.imp (fun hab => by simpa using hab)

theorem sort_by_ts_eq_nil_iff (l : List Tick) : sort_by_ts l = [] ↔ l = [] := by
  constructor
  · intro h
    have := (sort_by_ts_perm l).length_eq
    rw [h] at this
    exact List.length_eq_zero.mp this.symm
  · intro h
    subst h
    exact (sort_by_ts_perm []).eq_nil

/-- In a `≤`-sorted list, every element's timestamp is bounded by the
last element's. -/
theorem pairwise_le_getLastD : ∀ (rest : List Tick) (t : Tick),
    (t :: rest).Pairwise (fun a b => a.timestamp ≤ b.timestamp) →
    ∀ u ∈ t :: rest, u.timestamp ≤ (rest.getLastD t).timestamp := by
  intro rest
  induction rest with
  | nil =>
    intro t _ u hu
    simp at hu
    rw [hu, List.getLastD_nil]
  | cons b bs ih =>
    intro t hp u hu
    have hp' := List.pairwise_cons.mp hp
    have hlast : (b :: bs).getLastD t = bs.getLastD b := List.getLastD_cons t b bs
    rw [hlast]
    rcases List.mem_cons.mp hu with h | h
    · subst h
      exact le_trans (hp'.1 b (by simp)) (ih b hp'.2 b (by simp))
    · exact ih b hp'.2 u h

/-- Conclusion of claim C6: a real candle of the gap-filling converter
has `low ≤ min(open, close)` and `high ≥ max(open, close)`; its high /
low are the max / min tick price of the bucket, its open (close) is the
price of a timestamp-earliest (timestamp-latest) tick, its volume the
size sum and its trades the tick count. -/
def C6Spec (k : ℤ) (l : List Tick) (c : Candle) : Prop :=
  c.low ≤ min c.openPrice c.close ∧
  max c.openPrice c.close ≤ c.high ∧
  c.high ∈ l.map Tick.price ∧ (∀ p ∈ l.map Tick.price, p ≤ c.high) ∧
  c.low ∈ l.map Tick.price ∧ (∀ p ∈ l.map Tick.price, c.low ≤ p) ∧
  (∃ t ∈ l, c.openPrice = t.price ∧ ∀ u ∈ l, t.timestamp ≤ u.timestamp) ∧
  (∃ t ∈ l, c.close = t.price ∧ ∀ u ∈ l, u.timestamp ≤ t.timestamp) ∧
  c.volume = (l.map Tick.size).sum ∧
  c.trades = l.length ∧
  c.timestamp = k

/-- **C6**: every real (non-gap-filled) candle computed by
`get_ohlcv_for_interval` satisfies the OHLC invariant of `C6Spec`. -/
theorem C6_real_candle_invariant (k : ℤ) (l : List Tick) (c : Candle)
    (h : get_ohlcv_for_interval k l = some c) : C6Spec k l c := by
  rw [get_ohlcv_for_interval] at h
  cases hs : sort_by_ts l with
  | nil => rw [hs] at h; simp at h
  | cons t rest =>
    rw [hs] at h
    simp only [Option.some_inj] at h
    have hperm : (t :: rest).Perm l := hs ▸ sort_by_ts_perm l
    have hsorted : (t :: rest).Pairwise (fun a b => a.timestamp ≤ b.timestamp) :=
      hs ▸ sort_by_ts_sorted l
    have hpperm : ((t :: rest).map Tick.price).Perm (l.map Tick.price) := hperm.map _
    have hfmax : rest.foldl (fun m u => max m u.price) t.price =
        (rest.map Tick.price).foldl max t.price := by rw [List.foldl_map]
    have hfmin : rest.foldl (fun m u => min m u.price) t.price =
        (rest.map Tick.price).foldl min t.price := by rw [List.foldl_map]
    have hhmem : (rest.foldl (fun m u => max m u.price) t.price) ∈
        (t :: rest).map Tick.price := by
      rw [hfmax, List.map_cons]
      rcases foldl_max_mem (rest.map Tick.price) t.price with hh | hh
      · rw [hh]; simp
      · simp [hh]
    have hhbound : ∀ p ∈ (t :: rest).map Tick.price,
        p ≤ rest.foldl (fun m u => max m u.price) t.price := by
      intro p hp
      rw [hfmax]
      rw [List.map_cons] at hp
      rcases List.mem_cons.mp hp with hp' | hp'
      · exact hp' ▸ le_foldl_max _ _
      · exact mem_le_foldl_max _ _ _ hp'
    have hlmem : (rest.foldl (fun m u => min m u.price) t.price) ∈
        (t :: rest).map Tick.price := by
      rw [hfmin, List.map_cons]
      rcases foldl_min_mem (rest.map Tick.price) t.price with hh | hh
      · rw [hh]; simp
      · simp [hh]
    have hlbound : ∀ p ∈ (t :: rest).map Tick.price,
        rest.foldl (fun m u => min m u.price) t.price ≤ p := by
      intro p hp
      rw [hfmin]
      rw [List.map_cons] at hp
      rcases List.mem_cons.mp hp with hp' | hp'
      · exact hp' ▸ foldl_min_le _ _
      · exact foldl_min_le_mem _ _ _ hp'
    have hopen_mem : t.price ∈ (t :: rest).map Tick.price := by simp
    have hclose_mem : (rest.getLastD t).price ∈ (t :: rest).map Tick.price := by
      have : rest.getLastD t ∈ t :: rest := by
        cases rest with
        | nil => simp
        | cons b bs =>
          have : (b :: bs).getLastD t = (b :: bs).getLast (by simp) := by
            rw [List.getLastD_eq_getLast?, List.getLast?_eq_getLast _ (by simp)]
            rfl
          rw [this]
          exact List.mem_cons_of_mem t (List.getLast_mem _)
      exact List.mem_map_of_mem Tick.price this
    subst h
    refine ⟨?_, ?_, ?_, ?_, ?_, ?_, ?_, ?_, ?_, ?_, rfl⟩
    · exact le_min (hlbound _ hopen_mem) (hlbound _ hclose_mem)
    · exact max_le (hhbound _ hopen_mem) (hhbound _ hclose_mem)
    · exact hpperm.mem_iff.mp hhmem
    · intro p hp; exact hhbound p (hpperm.mem_iff.mpr hp)
    · exact hpperm.mem_iff.mp hlmem
    · intro p hp; exact hlbound p (hpperm.mem_iff.mpr hp)
    · refine ⟨t, hperm.subset (by simp), rfl, ?_⟩
      intro u hu
      have hu' := hperm.mem_iff.mpr hu
      rcases List.mem_cons.mp hu' with h' | h'
      · rw [h']
      · exact (List.pairwise_cons.mp hsorted).1 u h'
    · refine ⟨rest.getLastD t, hperm.subset ?_, rfl, ?_⟩
      · cases rest with
        | nil => simp
        | cons b bs =>
          have : (b :: bs).getLastD t = (b :: bs).getLast (by simp) := by
            rw [List.getLastD_eq_getLast?, List.getLast?_eq_getLast _ (by simp)]
            rfl
          rw [this]
          exact List.mem_cons_of_mem t (List.getLast_mem _)
      · intro u hu
        exact pairwise_le_getLastD rest t hsorted u (hperm.mem_iff.mpr hu)
    · show ((t :: rest).map Tick.size).sum = (l.map Tick.size).sum
      exact (hperm.map Tick.size).sum_eq
    · show (t :: rest).length = l.length
      exact hperm.length_eq
  
/-- Witness for C6 on a concrete two-tick bucket (ticks arriving in
reverse timestamp order). -/
theorem C6_real_candle_invariant_witness :
    get_ohlcv_for_interval 0 [⟨1, 5, 2⟩, ⟨0, 7, 1⟩] = some ⟨0, 7, 7, 5, 5, 3, 2⟩ ∧
    C6Spec 0 [⟨1, 5, 2⟩, ⟨0, 7, 1⟩] ⟨0, 7, 7, 5, 5, 3, 2⟩ :=
  ⟨by with_unfolding_all decide,
   C6_real_candle_invariant _ _ _ (by with_unfolding_all decide)⟩

end Gap

namespace Gap

/-- The ticks of bucket `k`, in arrival order. -/
def bucketTicks (i k : ℤ) (ts : List Tick) : List Tick :=
  ts.filter (fun t => decide (get_interval i t.timestamp = k))

theorem lookupKey_add_tick (k k' : ℤ) (t : Tick) : ∀ m : GMap,
    lookupKey k (add_tick m k' t) =
      if k = k' then some ((lookupKey k m).getD [] ++ [t]) else lookupKey k m := by
  intro m
  induction m with
  | nil =>
    by_cases hk : k = k'
    · subst hk; simp [add_tick, lookupKey]
    · simp [add_tick, lookupKey, hk, Ne.symm hk]
  | cons e rest ih =>
    by_cases he : e.1 = k'
    · rw [add_tick, if_pos he]
      by_cases hk : k = k'
      · subst hk
        rw [lookupKey, if_pos he, if_pos rfl, lookupKey, if_pos he]
        rfl
      · have hek : ¬ e.1 = k := fun h => hk (h.symm.trans he)
        rw [lookupKey, if_neg hek, if_neg hk, lookupKey, if_neg hek]
    · rw [add_tick, if_neg he]
      by_cases hek : e.1 = k
      · have hk : ¬ k = k' := fun h => he (hek.trans h)
        rw [lookupKey, if_pos hek, if_neg hk, lookupKey, if_pos hek]
      · rw [lookupKey, if_neg hek, ih, lookupKey, if_neg hek]

theorem lookupKey_ingest_from (i : ℤ) : ∀ (ts : List Tick) (m : GMap) (k : ℤ),
    (∀ l, lookupKey k m = some l →
      lookupKey k (ingest_from i m ts) = some (l ++ bucketTicks i k ts)) ∧
    (lookupKey k m = none →
      lookupKey k (ingest_from i m ts) =
        if bucketTicks i k ts = [] then none else some (bucketTicks i k ts)) := by
  intro ts
  induction ts with
  | nil =>
    intro m k
    refine ⟨fun l hl => ?_, fun hn => ?_⟩
    · rw [ingest_from, hl, bucketTicks, List.filter_nil, List.append_nil]
    · rw [ingest_from, hn, bucketTicks, List.filter_nil, if_pos rfl]
  | cons t ts ih =>
    intro m k
    have hstep : ingest_from i m (t :: ts) =
        ingest_from i (add_tick m (get_interval i t.timestamp) t) ts := rfl
    by_cases hk : get_interval i t.timestamp = k
    · have hbt : bucketTicks i k (t :: ts) = t :: bucketTicks i k ts := by
        rw [bucketTicks, List.filter_cons, if_pos (by simpa using hk)]
        rfl
      have hadd := lookupKey_add_tick k (get_interval i t.timestamp) t m
      rw [if_pos hk.symm] at hadd
      refine ⟨fun l hl => ?_, fun hn => ?_⟩
      · rw [hstep]
        have := (ih (add_tick m (get_interval i t.timestamp) t) k).1
          ((lookupKey k m).getD [] ++ [t]) hadd
        rw [this, hl, hbt]
        simp
      · rw [hstep]
        have := (ih (add_tick m (get_interval i t.timestamp) t) k).1
          ((lookupKey k m).getD [] ++ [t]) hadd
        rw [this, hn, hbt]
        simp
    · have hbt : bucketTicks i k (t :: ts) = bucketTicks i k ts := by
        rw [bucketTicks, List.filter_cons, if_neg (by simpa using hk)]
        rfl
      have hadd := lookupKey_add_tick k (get_interval i t.timestamp) t m
      rw [if_neg (fun h => hk h.symm)] at hadd
      refine ⟨fun l hl => ?_, fun hn => ?_⟩
      · rw [hstep, (ih _ k).1 l (hadd.trans hl), hbt]
      · rw [hstep, (ih _ k).2 (hadd.trans hn), hbt]

/-- Dictionary lookup after ingesting a tick list: exactly the ticks of
that bucket, in arrival order (absent iff the bucket is empty). -/
theorem lookupKey_ingest (i : ℤ) (ts : List Tick) (k : ℤ) :
    lookupKey k (ingest i ts) =
      if bucketTicks i k ts = [] then none else some (bucketTicks i k ts) :=
  (lookupKey_ingest_from i ts [] k).2 rfl

theorem lookupKey_eq_none_iff (k : ℤ) : ∀ m : GMap,
    lookupKey k m = none ↔ k ∉ m.map Prod.fst := by
  intro m
  induction m with
  | nil => simp [lookupKey]
  | cons e rest ih =>
    rw [lookupKey]
    by_cases he : e.1 = k
    · simp [he]
    · simp only [if_neg he, ih, List.map_cons, List.mem_cons]
      constructor
      · intro h hc
        rcases hc with hc | hc
        · exact he hc.symm
        · exact h hc
      · intro h hc
        exact h (Or.inr hc)

theorem mem_keys_ingest (i : ℤ) (ts : List Tick) (k : ℤ) :
    k ∈ (ingest i ts).map Prod.fst ↔ ∃ t ∈ ts, get_interval i t.timestamp = k := by
  constructor
  · intro hmem
    have hne : lookupKey k (ingest i ts) ≠ none :=
      fun h => (lookupKey_eq_none_iff k _).mp h hmem
    rw [lookupKey_ingest] at hne
    by_cases hb : bucketTicks i k ts = []
    · rw [if_pos hb] at hne; exact absurd rfl hne
    · rw [bucketTicks, List.filter_eq_nil_iff] at hb
      push_neg at hb
      obtain ⟨t, ht, hk⟩ := hb
      exact ⟨t, ht, by simpa using hk⟩
  · intro ⟨t, ht, hk⟩
    by_contra hmem
    have hno : lookupKey k (ingest i ts) = none := (lookupKey_eq_none_iff k _).mpr hmem
    rw [lookupKey_ingest] at hno
    by_cases hb : bucketTicks i k ts = []
    · rw [bucketTicks, List.filter_eq_nil_iff] at hb
      exact hb t ht (by simpa using hk)
    · rw [if_neg hb] at hno; simp at hno

theorem first_interval_spec (m : GMap) (f : ℤ) :
    first_interval m = some f ↔
      f ∈ m.map Prod.fst ∧ ∀ k ∈ m.map Prod.fst, f ≤ k := by
  haveI : Std.Antisymm ((· : ℤ) ≤ ·) := ⟨fun h1 h2 => le_antisymm h1 h2⟩
  rw [first_interval]
  exact List.min?_eq_some_iff (fun a => le_refl a) (fun a b => min_choice a b)
    (fun a b c => le_min_iff)

theorem first_interval_none_iff (m : GMap) :
    first_interval m = none ↔ m = [] := by
  rw [first_interval, List.min?_eq_none_iff, List.map_eq_nil_iff]

/-- The bucket key is at most the (normalized) timestamp. -/
theorem get_interval_le (i : ℤ) (hi : 0 < i) (q : ℚ) :
    ((get_interval i q : ℤ) : ℚ) ≤ q := by
  have hq : (0 : ℚ) < (i : ℚ) := by exact_mod_cast hi
  rw [get_interval]
  push_cast
  have h1 : ((⌊q / (i : ℚ)⌋ : ℤ) : ℚ) ≤ q / (i : ℚ) := Int.floor_le _
  calc ((⌊q / (i : ℚ)⌋ : ℤ) : ℚ) * i ≤ (q / i) * i :=
        mul_le_mul_of_nonneg_right h1 (le_of_lt hq)
    _ = q := div_mul_cancel₀ q (ne_of_gt hq)

/-- The timestamp lies strictly before the next bucket boundary. -/
theorem lt_get_interval_add (i : ℤ) (hi : 0 < i) (q : ℚ) :
    q < ((get_interval i q : ℤ) : ℚ) + i := by
  have hq : (0 : ℚ) < (i : ℚ) := by exact_mod_cast hi
  rw [get_interval]
  push_cast
  have h2 : q / (i : ℚ) < ((⌊q / (i : ℚ)⌋ : ℤ) : ℚ) + 1 := Int.lt_floor_add_one _
  calc q = (q / i) * i := (div_mul_cancel₀ q (ne_of_gt hq)).symm
    _ < (((⌊q / (i : ℚ)⌋ : ℤ) : ℚ) + 1) * i := by
        exact mul_lt_mul_of_pos_right h2 hq
    _ = ((⌊q / (i : ℚ)⌋ : ℤ) : ℚ) * i + i := by ring

/-- Distinct bucket keys are at least one whole interval apart. -/
theorem get_interval_add_le_of_lt (i : ℤ) (hi : 0 < i) (q1 q2 : ℚ)
    (h : get_interval i q1 < get_interval i q2) :
    get_interval i q1 + i ≤ get_interval i q2 := by
  rw [get_interval] at h ⊢
  have hf : ⌊q1 / (i : ℚ)⌋ < ⌊q2 / (i : ℚ)⌋ := lt_of_mul_lt_mul_right h (le_of_lt hi)
  calc ⌊q1 / (i : ℚ)⌋ * i + i = (⌊q1 / (i : ℚ)⌋ + 1) * i := by ring
    _ ≤ ⌊q2 / (i : ℚ)⌋ * i := mul_le_mul_of_nonneg_right hf (le_of_lt hi)

end Gap


namespace Gap

/-- Flat-fill soundness of a candle sequence: threading `lc` as "close
of the most recent real (trades ≠ 0) candle", every gap-filled
(trades = 0) candle has zero volume, all four prices equal, and its fill
price equal to `lc` — or to the precomputed `next_open` when no real
candle precedes it. -/
def FilledOk (no : Option ℚ) : Option ℚ → List Candle → Prop
  | _, [] => True
  | lc, c :: rest =>
    if c.trades = 0 then
      (c.volume = 0 ∧ c.high = c.openPrice ∧ c.low = c.openPrice ∧
        c.close = c.openPrice ∧
        some c.openPrice = (match lc with | some x => some x | none => no)) ∧
      FilledOk no lc rest
    else FilledOk no (some c.close) rest

theorem get_ohlcv_trades_ne_zero (k : ℤ) (l : List Tick) (c : Candle)
    (h : get_ohlcv_for_interval k l = some c) : c.trades ≠ 0 := by
  rw [get_ohlcv_for_interval] at h
  cases hs : sort_by_ts l with
  | nil => rw [hs] at h; simp at h
  | cons t rest =>
    rw [hs] at h
    simp only [Option.some_inj] at h
    rw [← h]
    simp

theorem gen_loop_filledOk (m : GMap) (i endT : ℤ) :
    ∀ (fuel : ℕ) (cur : ℤ) (lc no : Option ℚ),
      FilledOk no lc (gen_loop m i endT fuel cur lc no) := by
  intro fuel
  induction fuel with
  | zero => intro cur lc no; exact trivial
  | succ fuel ih =>
    intro cur lc no
    simp only [gen_loop]
    by_cases hce : cur ≤ endT
    · rw [if_pos hce]
      split
      · rename_i ticks hlk
        split
        · rename_i c hoc
          have hne := get_ohlcv_trades_ne_zero cur ticks c hoc
          simp only [FilledOk]
          rw [if_neg hne]
          exact ih _ _ _
        · exact ih _ _ _
      · split
        · simp only [FilledOk, fill_candle, if_true]
          exact ⟨by simp, ih _ _ _⟩
        · split
          · simp only [FilledOk, fill_candle, if_true]
            exact ⟨by simp, ih _ _ _⟩
          · exact ih _ _ _
    · rw [if_neg hce]
      exact trivial

theorem filledOk_flat (no : Option ℚ) : ∀ (l : List Candle) (lc : Option ℚ),
    FilledOk no lc l → ∀ c ∈ l, c.trades = 0 →
      c.volume = 0 ∧ c.high = c.openPrice ∧ c.low = c.openPrice ∧
        c.close = c.openPrice := by
  intro l
  induction l with
  | nil => intro lc _ c hc; simp at hc
  | cons x xs ih =>
    intro lc hok c hc hc0
    simp only [FilledOk] at hok
    rcases List.mem_cons.mp hc with h | h
    · subst h
      rw [if_pos hc0] at hok
      exact ⟨hok.1.1, hok.1.2.1, hok.1.2.2.1, hok.1.2.2.2.1⟩
    · by_cases hx : x.trades = 0
      · rw [if_pos hx] at hok
        exact ih lc hok.2 c h hc0
      · rw [if_neg hx] at hok
        exact ih (some x.close) hok c h hc0

/-- Decomposition of a successful `next_open` computation. -/
theorem next_open_of_eq_some (m : GMap) (startT : ℤ) (p : ℚ)
    (h : next_open_of m startT = some p) :
    ∃ f l t rest, first_interval m = some f ∧ startT < f ∧ lookupKey f m = some l ∧
      sort_by_ts l = t :: rest ∧ p = t.price := by
  rw [next_open_of] at h
  split at h
  · exact absurd h (by simp)
  · split at h
    · split at h
      · exact absurd h (by simp)
      · split at h
        · exact absurd h (by simp)
        · have h' := Option.some_inj.mp h
          rename_i x2 f heq2 hlt x1 l heq1 x0 t rest heq0
          exact ⟨f, l, t, rest, heq2, hlt, heq1, heq0, h'.symm⟩
    · exact absurd h (by simp)


/-- Conclusion of claim C7: in the gap-filling converter's output,
every gap-filled (trades = 0) candle has zero volume and a single flat
fill price, equal to the close of the most recently emitted real candle
when one precedes it and to the precomputed `next_open` otherwise; and
whenever `next_open` is set it is the price of a timestamp-earliest
tick of the input, which lies strictly after the window start. -/
def C7Spec (i : ℤ) (ts : List Tick) (startT endT : ℤ) : Prop :=
  FilledOk (next_open_of (ingest i ts) startT) none
    (generate_all_candles i (ingest i ts) startT endT) ∧
  (∀ p : ℚ, next_open_of (ingest i ts) startT = some p →
    ∃ t ∈ ts, t.price = p ∧ (∀ u ∈ ts, t.timestamp ≤ u.timestamp) ∧
      (startT : ℚ) < t.timestamp) ∧
  (∀ c ∈ generate_all_candles i (ingest i ts) startT endT, c.trades = 0 →
    c.volume = 0 ∧ c.high = c.openPrice ∧ c.low = c.openPrice ∧
      c.close = c.openPrice)

/-- **C7**: gap-filled candles are flat, zero-volume, zero-trade, and
priced by the last real close (or by `next_open` for all leading
gaps). -/
theorem C7_gap_fill_prices (i : ℤ) (hi : 0 < i) (ts : List Tick) (startT endT : ℤ) :
    C7Spec i ts startT endT := by
  refine ⟨gen_loop_filledOk _ _ _ _ _ _ _, ?_, ?_⟩
  · intro p h
    obtain ⟨f, l, t, rest, hfi, hlt, hlk, hsl, hp⟩ :=
      next_open_of_eq_some (ingest i ts) startT p h
    have hperm : (t :: rest).Perm l := hsl ▸ sort_by_ts_perm l
    have hsorted := hsl ▸ sort_by_ts_sorted l
    have hlbt : l = bucketTicks i f ts := by
      rw [lookupKey_ingest] at hlk
      by_cases hb : bucketTicks i f ts = []
      · rw [if_pos hb] at hlk; exact absurd hlk (by simp)
      · rw [if_neg hb] at hlk; exact (Option.some_inj.mp hlk).symm
    have htl : t ∈ l := hperm.subset (by simp)
    have htmem : t ∈ ts := by
      rw [hlbt, bucketTicks] at htl
      exact List.mem_of_mem_filter htl
    have htbucket : get_interval i t.timestamp = f := by
      have h2 := htl
      rw [hlbt, bucketTicks] at h2
      simpa using List.of_mem_filter h2
    refine ⟨t, htmem, hp.symm, ?_, ?_⟩
    · intro u hu
      have hfspec := (first_interval_spec (ingest i ts) f).mp hfi
      have hukey : get_interval i u.timestamp ∈ (ingest i ts).map Prod.fst :=
        (mem_keys_ingest i ts _).mpr ⟨u, hu, rfl⟩
      have hfle : f ≤ get_interval i u.timestamp := hfspec.2 _ hukey
      rcases eq_or_lt_of_le hfle with heq | hlt2
      · have humem : u ∈ l := by
          rw [hlbt, bucketTicks, List.mem_filter]
          exact ⟨hu, by simpa using heq.symm⟩
        have humem' := hperm.mem_iff.mpr humem
        rcases List.mem_cons.mp humem' with h' | h'
        · rw [h']
        · exact (List.pairwise_cons.mp hsorted).1 u h'
      · have h1 : t.timestamp < ((f : ℤ) : ℚ) + (i : ℚ) := by
          have := lt_get_interval_add i hi t.timestamp
          rw [htbucket] at this
          exact_mod_cast this
        have h2 : ((get_interval i u.timestamp : ℤ) : ℚ) ≤ u.timestamp :=
          get_interval_le i hi u.timestamp
        have h3 : f + i ≤ get_interval i u.timestamp := by
          have := get_interval_add_le_of_lt i hi t.timestamp u.timestamp
            (by rw [htbucket]; exact hlt2)
          rw [htbucket] at this
          exact this
        have h4 : ((f : ℤ) : ℚ) + (i : ℚ) ≤ ((get_interval i u.timestamp : ℤ) : ℚ) := by
          exact_mod_cast h3
        exact le_of_lt (lt_of_lt_of_le h1 (le_trans h4 h2))
    · have hle : ((f : ℤ) : ℚ) ≤ t.timestamp := by
        have := get_interval_le i hi t.timestamp
        rw [htbucket] at this
        exact this
      have hsf : (startT : ℚ) < ((f : ℤ) : ℚ) := by exact_mod_cast hlt
      exact lt_of_lt_of_le hsf hle
  · intro c hc hc0
    exact filledOk_flat _ _ none (gen_loop_filledOk _ _ _ _ _ _ _) c hc hc0

/-- Witness for C7: one tick in bucket 60 with window [0, 120] — a
leading gap at 0 filled from `next_open`, a real candle at 60, and a
trailing gap at 120 filled from the last close. -/
theorem C7_gap_fill_prices_witness :
    (0 : ℤ) < 60 ∧ C7Spec 60 [⟨100, 5, 1⟩] 0 120 :=
  ⟨by decide, C7_gap_fill_prices 60 (by decide) [⟨100, 5, 1⟩] 0 120⟩

end Gap

namespace Gap

/-- Two permutation-equal tick lists with pairwise-distinct timestamps
sort identically. -/
theorem sort_by_ts_eq_of_perm (l₁ l₂ : List Tick) (hperm : l₁.Perm l₂)
    (hnodup : (l₁.map Tick.timestamp).Nodup) :
    sort_by_ts l₁ = sort_by_ts l₂ := by
  haveI : IsAntisymm Tick (fun a b => a.timestamp < b.timestamp) :=
    ⟨fun a b h1 h2 => absurd (h1.trans h2) (lt_irrefl _)⟩
  have hp : (sort_by_ts l₁).Perm (sort_by_ts l₂) :=
    ((sort_by_ts_perm l₁).trans hperm).trans (sort_by_ts_perm l₂).symm
  have hstrict : ∀ l : List Tick, (l.map Tick.timestamp).Nodup →
      List.Sorted (fun a b => a.timestamp < b.timestamp) (sort_by_ts l) := by
    intro l hnd
    have hnd' : ((sort_by_ts l).map Tick.timestamp).Nodup :=
      (((sort_by_ts_perm l).map Tick.timestamp).nodup_iff).mpr hnd
    have hne : (sort_by_ts l).Pairwise (fun a b => a.timestamp ≠ b.timestamp) :=
      (List.pairwise_map).mp hnd'
    exact ((sort_by_ts_sorted l).and hne).imp
      (fun hab => lt_of_le_of_ne hab.1 hab.2)
  have hnodup₂ : (l₂.map Tick.timestamp).Nodup :=
    ((hperm.map Tick.timestamp).nodup_iff).mp hnodup
  exact List.eq_of_perm_of_sorted hp (hstrict l₁ hnodup) (hstrict l₂ hnodup₂)

theorem get_ohlcv_congr (k : ℤ) (l₁ l₂ : List Tick)
    (h : sort_by_ts l₁ = sort_by_ts l₂) :
    get_ohlcv_for_interval k l₁ = get_ohlcv_for_interval k l₂ := by
  rw [get_ohlcv_for_interval, get_ohlcv_for_interval, h]

theorem min?_congr (l₁ l₂ : List ℤ) (h : ∀ a, a ∈ l₁ ↔ a ∈ l₂) :
    l₁.min? = l₂.min? := by
  haveI : Std.Antisymm ((· : ℤ) ≤ ·) := ⟨fun h1 h2 => le_antisymm h1 h2⟩
  cases h1 : l₁.min? with
  | none =>
    rw [List.min?_eq_none_iff] at h1
    cases h2 : l₂.min? with
    | none => rfl
    | some b =>
      have hb := (List.min?_eq_some_iff (fun a => le_refl a)
        (fun a b => min_choice a b) (fun a b c => le_min_iff)).mp h2
      exact absurd ((h b).mpr hb.1) (by rw [h1]; simp)
  | some a =>
    have ha := (List.min?_eq_some_iff (fun a => le_refl a)
      (fun a b => min_choice a b) (fun a b c => le_min_iff)).mp h1
    symm
    rw [List.min?_eq_some_iff (fun a => le_refl a)
      (fun a b => min_choice a b) (fun a b c => le_min_iff)]
    exact ⟨(h a).mp ha.1, fun b hb => ha.2 b ((h b).mpr hb)⟩

theorem first_interval_congr (m₁ m₂ : GMap)
    (h : ∀ k, k ∈ m₁.map Prod.fst ↔ k ∈ m₂.map Prod.fst) :
    first_interval m₁ = first_interval m₂ :=
  min?_congr _ _ h

theorem next_open_congr (m₁ m₂ : GMap) (startT : ℤ)
    (hkeys : ∀ k, k ∈ m₁.map Prod.fst ↔ k ∈ m₂.map Prod.fst)
    (hsort : ∀ k l₁ l₂, lookupKey k m₁ = some l₁ → lookupKey k m₂ = some l₂ →
      sort_by_ts l₁ = sort_by_ts l₂) :
    next_open_of m₁ startT = next_open_of m₂ startT := by
  rw [next_open_of, next_open_of, ← first_interval_congr m₁ m₂ hkeys]
  cases hfi : first_interval m₁ with
  | none => rfl
  | some f =>
    simp only []
    by_cases hlt : startT < f
    · rw [if_pos hlt, if_pos hlt]
      have hf1 : f ∈ m₁.map Prod.fst :=
        ((first_interval_spec m₁ f).mp hfi).1
      have hf2 : f ∈ m₂.map Prod.fst := (hkeys f).mp hf1
      cases hlk1 : lookupKey f m₁ with
      | none => exact absurd ((lookupKey_eq_none_iff f m₁).mp hlk1) (by simp [hf1])
      | some l₁ =>
        cases hlk2 : lookupKey f m₂ with
        | none => exact absurd ((lookupKey_eq_none_iff f m₂).mp hlk2) (by simp [hf2])
        | some l₂ =>
          simp only []
          rw [hsort f l₁ l₂ hlk1 hlk2]
    · rw [if_neg hlt, if_neg hlt]

theorem gen_loop_congr (m₁ m₂ : GMap) (i endT : ℤ)
    (hnone : ∀ k, lookupKey k m₁ = none ↔ lookupKey k m₂ = none)
    (hsort : ∀ k l₁ l₂, lookupKey k m₁ = some l₁ → lookupKey k m₂ = some l₂ →
      sort_by_ts l₁ = sort_by_ts l₂) :
    ∀ (fuel : ℕ) (cur : ℤ) (lc no : Option ℚ),
      gen_loop m₁ i endT fuel cur lc no = gen_loop m₂ i endT fuel cur lc no := by
  intro fuel
  induction fuel with
  | zero => intro cur lc no; rfl
  | succ fuel ih =>
    intro cur lc no
    simp only [gen_loop]
    by_cases hce : cur ≤ endT
    · rw [if_pos hce, if_pos hce]
      cases hlk1 : lookupKey cur m₁ with
      | none =>
        have hlk2 : lookupKey cur m₂ = none := (hnone cur).mp hlk1
        rw [hlk2]
        simp only []
        cases lc with
        | some fp => simp only []; rw [ih]
        | none =>
          cases no with
          | some fp => simp only []; rw [ih]
          | none => simp only []; exact ih _ _ _
      | some l₁ =>
        cases hlk2 : lookupKey cur m₂ with
        | none =>
          exact absurd ((hnone cur).mpr hlk2) (by rw [hlk1]; simp)
        | some l₂ =>
          simp only []
          rw [get_ohlcv_congr cur l₁ l₂ (hsort cur l₁ l₂ hlk1 hlk2)]
          cases get_ohlcv_for_interval cur l₂ with
          | some c => simp only []; rw [ih]
          | none => simp only []; exact ih _ _ _
    · rw [if_neg hce, if_neg hce]

end Gap

namespace Gap

/-- **C5 (amended)**: arrival-order permutation invariance of the
gap-filling converter holds under the additional hypothesis that no two
ticks share a timestamp (the stable sort breaks timestamp ties by
arrival order, so open/close can differ otherwise). -/
theorem C5_permutation_invariance (i : ℤ) (ts₁ ts₂ : List Tick)
    (hperm : ts₁.Perm ts₂) (hnodup : (ts₁.map Tick.timestamp).Nodup)
    (startT endT : ℤ) :
    generate_all_candles i (ingest i ts₁) startT endT =
      generate_all_candles i (ingest i ts₂) startT endT := by
  have hfilter : ∀ k, (bucketTicks i k ts₁).Perm (bucketTicks i k ts₂) :=
    fun k => hperm.filter _
  have hnone : ∀ k, lookupKey k (ingest i ts₁) = none ↔
      lookupKey k (ingest i ts₂) = none := by
    intro k
    rw [lookupKey_ingest, lookupKey_ingest]
    by_cases hb : bucketTicks i k ts₁ = []
    · have hb2 : bucketTicks i k ts₂ = [] := by
        have hpk := hfilter k
        rw [hb] at hpk
        exact hpk.symm.eq_nil
      simp [hb, hb2]
    · have hb2 : bucketTicks i k ts₂ ≠ [] := by
        intro h2
        have hpk := hfilter k
        rw [h2] at hpk
        exact hb hpk.eq_nil
      simp [hb, hb2]
  have hsort : ∀ k l₁ l₂, lookupKey k (ingest i ts₁) = some l₁ →
      lookupKey k (ingest i ts₂) = some l₂ → sort_by_ts l₁ = sort_by_ts l₂ := by
    intro k l₁ l₂ h1 h2
    rw [lookupKey_ingest] at h1 h2
    by_cases hb1 : bucketTicks i k ts₁ = []
    · rw [if_pos hb1] at h1; exact absurd h1 (by simp)
    · by_cases hb2 : bucketTicks i k ts₂ = []
      · rw [if_pos hb2] at h2; exact absurd h2 (by simp)
      · rw [if_neg hb1] at h1
        rw [if_neg hb2] at h2
        rw [← Option.some_inj.mp h1, ← Option.some_inj.mp h2]
        apply sort_by_ts_eq_of_perm _ _ (hfilter k)
        have hsub : (bucketTicks i k ts₁).Sublist ts₁ := List.filter_sublist _
        exact (hsub.map Tick.timestamp).nodup hnodup
  have hkeys : ∀ k, k ∈ (ingest i ts₁).map Prod.fst ↔
      k ∈ (ingest i ts₂).map Prod.fst := by
    intro k
    rw [mem_keys_ingest, mem_keys_ingest]
    constructor
    · intro ⟨t, ht, hk⟩; exact ⟨t, hperm.subset ht, hk⟩
    · intro ⟨t, ht, hk⟩; exact ⟨t, hperm.symm.subset ht, hk⟩
  rw [generate_all_candles, generate_all_candles,
    next_open_congr _ _ startT hkeys hsort,
    gen_loop_congr _ _ i endT hnone hsort]

set_option maxRecDepth 4000 in
/-- Counterexample to C5 as stated (no tie-breaking caveat): two ticks
with the *same* timestamp but different prices; exchanging their arrival
order changes the bucket's open/close, because the stable sort keeps
arrival order among equal timestamps. -/
theorem C5_counterexample :
    (([⟨0, 1, 1⟩, ⟨0, 2, 1⟩] : List Tick).Perm [⟨0, 2, 1⟩, ⟨0, 1, 1⟩]) ∧
    generate_all_candles 60 (ingest 60 [⟨0, 1, 1⟩, ⟨0, 2, 1⟩]) 0 0 ≠
      generate_all_candles 60 (ingest 60 [⟨0, 2, 1⟩, ⟨0, 1, 1⟩]) 0 0 :=
  ⟨List.Perm.swap _ _ _, by with_unfolding_all decide⟩

set_option maxRecDepth 4000 in
/-- Witness for the amended C5 at a concrete pair of reorderings with
distinct timestamps. -/
theorem C5_permutation_invariance_witness :
    (([⟨0, 1, 1⟩, ⟨60, 2, 1⟩] : List Tick).Perm [⟨60, 2, 1⟩, ⟨0, 1, 1⟩]) ∧
    (([⟨0, 1, 1⟩, ⟨60, 2, 1⟩] : List Tick).map Tick.timestamp).Nodup ∧
    generate_all_candles 60 (ingest 60 [⟨0, 1, 1⟩, ⟨60, 2, 1⟩]) 0 60 =
      generate_all_candles 60 (ingest 60 [⟨60, 2, 1⟩, ⟨0, 1, 1⟩]) 0 60 :=
  ⟨List.Perm.swap _ _ _, by with_unfolding_all decide,
   C5_permutation_invariance 60 _ _ (List.Perm.swap _ _ _)
     (by with_unfolding_all decide) 0 60⟩

end Gap

namespace Gap

/-- The bucket keys of the session walk: from `cur` to `end_time`
inclusive, stepping by `i` (same fuel discipline as `gen_loop`). -/
def bucket_keys (i end_time : ℤ) : ℕ → ℤ → List ℤ
  | 0, _ => []
  | fuel + 1, cur => if cur ≤ end_time then cur :: bucket_keys i end_time fuel (cur + i) else []

theorem mem_bucket_keys (i endT : ℤ) (hi : 0 < i) (k : ℤ) :
    ∀ (fuel : ℕ) (cur : ℤ), (endT + i - cur).toNat ≤ fuel →
      (k ∈ bucket_keys i endT fuel cur ↔ ∃ j : ℕ, k = cur + j * i ∧ k ≤ endT) := by
  intro fuel
  induction fuel with
  | zero =>
    intro cur hf
    have hcur : endT < cur := by omega
    rw [bucket_keys]
    simp only [List.not_mem_nil, false_iff, not_exists, not_and]
    intro j hk
    have : (0 : ℤ) ≤ (j : ℤ) * i := mul_nonneg (by positivity) (le_of_lt hi)
    omega
  | succ fuel ih =>
    intro cur hf
    rw [bucket_keys]
    by_cases hce : cur ≤ endT
    · rw [if_pos hce]
      have hf' : (endT + i - (cur + i)).toNat ≤ fuel := by omega
      rw [List.mem_cons, ih (cur + i) hf']
      constructor
      · intro h
        rcases h with h | ⟨j, hj, hle⟩
        · exact ⟨0, by omega, by omega⟩
        · exact ⟨j + 1, by push_cast; linarith, hle⟩
      · intro ⟨j, hj, hle⟩
        cases j with
        | zero => left; simp at hj; omega
        | succ j =>
          right
          refine ⟨j, ?_, hle⟩
          push_cast at hj ⊢
          linarith
    · rw [if_neg hce]
      simp only [List.not_mem_nil, false_iff, not_exists, not_and]
      intro j hk
      have : (0 : ℤ) ≤ (j : ℤ) * i := mul_nonneg (by positivity) (le_of_lt hi)
      omega

theorem ingest_entries_ne_nil (i : ℤ) (ts : List Tick) (k : ℤ) (l : List Tick)
    (h : lookupKey k (ingest i ts) = some l) : l ≠ [] := by
  rw [lookupKey_ingest] at h
  by_cases hb : bucketTicks i k ts = []
  · rw [if_pos hb] at h; exact absurd h (by simp)
  · rw [if_neg hb] at h
    rw [← Option.some_inj.mp h]
    exact hb

theorem get_ohlcv_isSome (k : ℤ) (l : List Tick) (h : l ≠ []) :
    ∃ c, get_ohlcv_for_interval k l = some c ∧ c.timestamp = k := by
  rw [get_ohlcv_for_interval]
  cases hs : sort_by_ts l with
  | nil => exact absurd ((sort_by_ts_eq_nil_iff l).mp hs) h
  | cons t rest => exact ⟨_, rfl, rfl⟩

/-- Once a fill price is available (a previous real close or a
precomputed `next_open`), the walk emits exactly one candle per bucket
key, keyed in ascending walk order. -/
theorem gen_loop_all_emit (m : GMap) (i endT : ℤ)
    (hm : ∀ k l, lookupKey k m = some l → l ≠ []) :
    ∀ (fuel : ℕ) (cur : ℤ) (lc no : Option ℚ), lc.isSome ∨ no.isSome →
      (gen_loop m i endT fuel cur lc no).map Candle.timestamp =
        bucket_keys i endT fuel cur := by
  intro fuel
  induction fuel with
  | zero => intro cur lc no _; rfl
  | succ fuel ih =>
    intro cur lc no h
    simp only [gen_loop, bucket_keys]
    by_cases hce : cur ≤ endT
    · rw [if_pos hce, if_pos hce]
      cases hlk : lookupKey cur m with
      | some l =>
        simp only []
        obtain ⟨c, hc, hct⟩ := get_ohlcv_isSome cur l (hm cur l hlk)
        rw [hc]
        simp only [List.map_cons, hct]
        rw [ih _ _ _ (Or.inl Option.isSome_some)]
      | none =>
        simp only []
        cases lc with
        | some fp =>
          simp only [List.map_cons, fill_candle]
          rw [ih _ _ _ (Or.inl Option.isSome_some)]
        | none =>
          cases no with
          | some fp =>
            simp only [List.map_cons, fill_candle]
            rw [ih _ _ _ (Or.inr Option.isSome_some)]
          | none => simp at h
    · rw [if_neg hce, if_neg hce]
      rfl

theorem gen_loop_empty_map (i endT : ℤ) :
    ∀ (fuel : ℕ) (cur : ℤ), gen_loop [] i endT fuel cur none none = [] := by
  intro fuel
  induction fuel with
  | zero => intro cur; rfl
  | succ fuel ih =>
    intro cur
    simp only [gen_loop]
    by_cases hce : cur ≤ endT
    · rw [if_pos hce]
      exact ih (cur + i)
    · rw [if_neg hce]

end Gap

namespace Gap

set_option maxRecDepth 4000 in
/-- Counterexample to C2 as stated: interval 60, window [0, 120], one
tick in bucket -60 (before the window) and one in bucket 120.  Ticks do
exist in the window, so the claim demands one candle for each of the
bucket keys 0, 60, 120 — but the converter emits only the candle at
120: the out-of-window tick makes `first_interval` smaller than the
window start, so `next_open` stays `None` and the leading in-window
buckets are skipped. -/
theorem C2_counterexample :
    (∃ t ∈ ([⟨-60, 1, 1⟩, ⟨120, 2, 1⟩] : List Tick),
      (0 : ℤ) ≤ get_interval 60 t.timestamp ∧ get_interval 60 t.timestamp ≤ 120) ∧
    (generate_all_candles 60 (ingest 60 [⟨-60, 1, 1⟩, ⟨120, 2, 1⟩]) 0 120).map
      Candle.timestamp = [120] := by
  with_unfolding_all decide

/-- Conclusion of the amended claim C2: the empty tick multiset yields
zero candles; a non-empty one yields exactly one candle per bucket key
of the window walk, in ascending order; and the walk's keys are exactly
the multiples `window_start + j·interval` up to `window_end`. -/
def C2Spec (i : ℤ) (ts : List Tick) (startT endT : ℤ) : Prop :=
  (ts = [] → generate_all_candles i (ingest i ts) startT endT = []) ∧
  (ts ≠ [] → (generate_all_candles i (ingest i ts) startT endT).map Candle.timestamp =
    bucket_keys i endT (gen_fuel i startT endT) startT) ∧
  (∀ k : ℤ, k ∈ bucket_keys i endT (gen_fuel i startT endT) startT ↔
    ∃ j : ℕ, k = startT + j * i ∧ k ≤ endT)

/-- **C2 (amended)**: under the proviso that every tick's bucket key
lies inside `[window_start, window_end]`, the gap-filling converter
emits exactly one candle per bucket key of the window (zero candles for
an empty input). -/
theorem C2_window_coverage (i : ℤ) (hi : 0 < i) (ts : List Tick) (startT endT : ℤ)
    (hwin : ∀ t ∈ ts, startT ≤ get_interval i t.timestamp ∧
      get_interval i t.timestamp ≤ endT) :
    C2Spec i ts startT endT := by
  refine ⟨?_, ?_, fun k => mem_bucket_keys i endT hi k _ startT (by simp [gen_fuel])⟩
  · intro he
    subst he
    exact gen_loop_empty_map i endT _ startT
  · intro hne
    obtain ⟨t0, ht0⟩ := List.exists_mem_of_ne_nil ts hne
    have hkne : get_interval i t0.timestamp ∈ (ingest i ts).map Prod.fst :=
      (mem_keys_ingest i ts _).mpr ⟨t0, ht0, rfl⟩
    have hfne : first_interval (ingest i ts) ≠ none := by
      intro h0
      rw [first_interval_none_iff] at h0
      rw [h0] at hkne
      simp at hkne
    obtain ⟨f, hfi⟩ := Option.ne_none_iff_exists'.mp hfne
    have hfspec := (first_interval_spec _ f).mp hfi
    obtain ⟨tf, htf, htfk⟩ := (mem_keys_ingest i ts f).mp hfspec.1
    have hfwin := hwin tf htf
    rw [htfk] at hfwin
    have hmne : ∀ k l, lookupKey k (ingest i ts) = some l → l ≠ [] :=
      ingest_entries_ne_nil i ts
    by_cases hstart : startT < f
    · have hno : ∃ p, next_open_of (ingest i ts) startT = some p := by
        rw [next_open_of, hfi]
        simp only []
        rw [if_pos hstart]
        cases hlk : lookupKey f (ingest i ts) with
        | none => exact absurd ((lookupKey_eq_none_iff f _).mp hlk) (by simp [hfspec.1])
        | some l =>
          simp only []
          cases hsl : sort_by_ts l with
          | nil => exact absurd ((sort_by_ts_eq_nil_iff l).mp hsl) (hmne f l hlk)
          | cons t rest => exact ⟨t.price, rfl⟩
      obtain ⟨p, hp⟩ := hno
      rw [generate_all_candles, hp]
      exact gen_loop_all_emit _ i endT hmne _ startT none (some p)
        (Or.inr Option.isSome_some)
    · have hf_eq : f = startT := le_antisymm (not_lt.mp hstart) hfwin.1
      have hsend : startT ≤ endT := hf_eq ▸ hfwin.2
      have hfuel1 : 1 ≤ gen_fuel i startT endT := by rw [gen_fuel]; omega
      rw [generate_all_candles]
      cases hgf : gen_fuel i startT endT with
      | zero => omega
      | succ n =>
        simp only [gen_loop]
        rw [if_pos hsend]
        have hkst : startT ∈ (ingest i ts).map Prod.fst := hf_eq ▸ hfspec.1
        cases hlk : lookupKey startT (ingest i ts) with
        | none => exact absurd ((lookupKey_eq_none_iff _ _).mp hlk) (by simp [hkst])
        | some l =>
          simp only []
          obtain ⟨c, hc, hct⟩ := get_ohlcv_isSome startT l (hmne _ l hlk)
          rw [hc]
          simp only [List.map_cons, hct]
          rw [gen_loop_all_emit _ i endT hmne n (startT + i) (some c.close) _
            (Or.inl Option.isSome_some)]
          simp only [bucket_keys]
          rw [if_pos hsend]

set_option maxRecDepth 4000 in
/-- Witness for the amended C2: one tick in bucket 0, interval 60,
window [0, 120]. -/
theorem C2_window_coverage_witness :
    (0 : ℤ) < 60 ∧
    (∀ t ∈ ([⟨30, 5, 1⟩] : List Tick),
      (0 : ℤ) ≤ get_interval 60 t.timestamp ∧ get_interval 60 t.timestamp ≤ 120) ∧
    C2Spec 60 [⟨30, 5, 1⟩] 0 120 :=
  ⟨by decide, by with_unfolding_all decide,
   C2_window_coverage 60 (by decide) [⟨30, 5, 1⟩] 0 120
     (by with_unfolding_all decide)⟩

end Gap
